import Mathlib

/-!
Verification of the tiling / mosaicking module (`geo/tiling.py`) and the
algorithm adaptation module (`nd/algorithm.py`).

The Python code is shallow-embedded below.  Datasets are modelled with a
single (chunked) dimension: a `Ds` carries the dimension name, the ordered
coordinate axis, the data values (positional, aligned with the coordinates)
and the dask chunk lengths along the dimension.  All list slicing follows
Python semantics (`pySlice`), including negative and missing endpoints.
Fallible operations return `Except String`; a raised Python exception is
modelled as `Except.error` with (a close rendering of) its message.

External helper namespaces (`satio`, `utils`, `xarray.open_dataset`,
`glob`) are not part of the supplied source; they are modelled from the
specification where noted.
-/

namespace ND

/-- Normalise one endpoint of a Python slice for a list of length `n`:
`none` becomes the default, a negative index counts from the end (clamped
at 0), a non-negative index is clamped at `n`. -/
def pyIndex (n : Nat) (dflt : Nat) : Option Int → Nat
  | none => dflt
  | some i => if i < 0 then ((n : Int) + i).toNat else min i.toNat n

/-- Python list slicing `l[start:stop]` (step 1). -/
def pySlice (start stop : Option Int) (l : List β) : List β :=
  (l.take (pyIndex l.length l.length stop)).drop (pyIndex l.length 0 start)

/-- A Python `slice` object with optional start and stop (step is never
used by the source). -/
structure Slc where
  start : Option Int
  stop : Option Int
deriving DecidableEq

/-- A gridded dataset with a single dimension: dimension name, coordinate
axis, positional data values and dask chunk lengths along the dimension.
The chunk metadata of intermediate results (slices, concatenations) is
carried approximately; no operation of the source reads it after slicing. -/
structure Ds (α : Type) where
  dim : String
  coords : List Int
  data : List α
  chunks : List Nat
deriving DecidableEq

/-- The declared dimensions of the dataset (`ds.dims`). -/
def Ds.dims (d : Ds α) : List String := [d.dim]

/-- Positional slicing `ds.isel({dim: s})` along the dataset's dimension. -/
def Ds.isel1 (d : Ds α) (s : Slc) : Ds α :=
  { dim := d.dim
    coords := pySlice s.start s.stop d.coords
    data := pySlice s.start s.stop d.data
    chunks := [(pySlice s.start s.stop d.coords).length] }

/-- Apply `ds.isel(slice_dict)` for a dictionary of per-dimension slices;
entries for other dimensions do not apply to this dataset. -/
def Ds.iselCombo (d : Ds α) (combo : List (String × Slc)) : Ds α :=
  combo.foldl (fun acc e => if e.1 == acc.dim then acc.isel1 e.2 else acc) d

/-- Evenly split a length `n` into chunks of size `c` (last chunk may be
shorter), as `dask` re-chunking does.  The first argument is fuel equal
to `n`. -/
def mkChunkLensAux : Nat → Nat → Nat → List Nat
  | 0, _, _ => []
  | _, _, 0 => []
  | fuel + 1, n, c =>
    if n = 0 then [] else if n ≤ c then [n] else c :: mkChunkLensAux fuel (n - c) c

/-- Re-chunk the dataset to the given chunk specification (`ds.chunk(chunks)`);
a dimension absent from the specification keeps its chunking. -/
def Ds.chunk (d : Ds α) (spec : List (String × Nat)) : Ds α :=
  match spec.lookup d.dim with
  | some c => { d with chunks := mkChunkLensAux d.coords.length d.coords.length c }
  | none => d

/-- A buffer specification: the literal marker `'auto'`, a single integer,
or a per-dimension mapping. -/
inductive Buffer where
  | auto
  | int (b : Int)
  | dict (entries : List (String × Int))
deriving DecidableEq

/-- The file system: serialized datasets keyed by full path, plus the set
of existing directories. -/
structure FS (α : Type) where
  files : List (String × Ds α)
  dirs : List String
deriving DecidableEq

/-- Path components of a string path, split on `/`. -/
def pathComponents (p : String) : List String := p.splitOn "/"

/-- All ancestor directories of a path, innermost last (the path itself
included). -/
def pathPrefixes (p : String) : List String :=
  (List.range (pathComponents p).length).map
    (fun i => "/".intercalate ((pathComponents p).take (i + 1)))

/-- Model of `os.makedirs(path)`: create the directory and its parents. -/
def makedirs (fs : FS α) (p : String) : FS α :=
  { fs with dirs := pathPrefixes p ++ fs.dirs }

/-- Model of `os.path.isfile`. -/
def isfile (fs : FS α) (p : String) : Bool := fs.files.any (fun e => e.1 == p)

/-- Model of `os.path.isdir`. -/
def isdir (fs : FS α) (p : String) : Bool := fs.dirs.any (fun d => d == p)

/-- Modelled from the spec: the I/O namespace's write operation
(`satio.to_netcdf`), serializing a dataset to the given path and
overwriting any existing file there. -/
def fsWrite (fs : FS α) (p : String) (d : Ds α) : FS α :=
  { fs with files := (p, d) :: fs.files.filter (fun e => !(e.1 == p)) }

/-- Modelled from the spec: the I/O namespace's read operation
(`satio.from_netcdf` / `xarray.open_dataset` with `chunks={}`), opening a
single serialized dataset file. -/
def openDs (fs : FS α) (p : String) : Except String (Ds α) :=
  match fs.files.lookup p with
  | some d => .ok d
  | none => .error ("No such file or directory: " ++ p)

/-- Model of `os.path.join` for one component. -/
def joinPath (a b : String) : String := a ++ "/" ++ b

/-- Resolution of the buffer for one dimension inside `tile`:
`isinstance(buffer, int)` uses it directly, `isinstance(buffer, dict)`
looks the dimension up (default 0), anything else — including the merge
marker `'auto'` — falls into the `else` branch and yields 0. -/
def resolveTileBuf (buffer : Buffer) (dim : String) : Int :=
  match buffer with
  | .int b => b
  | .dict d => (d.lookup dim).getD 0
  | .auto => 0

/-- The per-dimension loop of `tile` step 1: convert chunk lengths into
slice objects, applying the buffer.  `start` is the running cumulative
offset; the stored slice is
`slice(max(0, start - buf), start + l + buf)`. -/
def buildSlicesAux (buf : Int) : Nat → List Nat → List Slc
  | _, [] => []
  | start, l :: ls =>
    ⟨some (max 0 ((start : Int) - buf)), some ((start : Int) + (l : Int) + buf)⟩ ::
      buildSlicesAux buf (start + l) ls

/-- Slice objects for one dimension's chunk lengths (buffer applied). -/
def buildSlices (lens : List Nat) (buf : Int) : List Slc := buildSlicesAux buf 0 lens

/-- Modelled from the spec: the utilities namespace's
Cartesian-product-of-slices helper (`utils.dict_product`), enumerating
every combination of one slice per dimension. -/
def dictProduct : List (String × List Slc) → List (List (String × Slc))
  | [] => [[]]
  | (d, ss) :: rest => ss.flatMap (fun s => (dictProduct rest).map (fun combo => (d, s) :: combo))

/-- Rendering of `f-string` interpolation of `s.start` (never `None` for
slices produced by `tile`). -/
def startRepr : Option Int → String
  | some v => toString v
  | none => "None"

/-- The tile file name `{prefix}.{dim1}_{start1}. ... .nc` built from one
combination of per-dimension slices; the encoded number is the slice's
`.start`. -/
def tileName (pfx : String) (combo : List (String × Slc)) : String :=
  pfx ++ "." ++ ".".intercalate (combo.map (fun e => e.1 ++ "_" ++ startRepr e.2.start)) ++ ".nc"

/-- The (file name, sub-dataset) pairs that `tile` writes, in write order. -/
def tileEntries (chunked : Ds α) (pfx : String) (buffer : Buffer) : List (String × Ds α) :=
  let slcs := [(chunked.dim, buildSlices chunked.chunks (resolveTileBuf buffer chunked.dim))]
  (dictProduct slcs).map (fun combo => (tileName pfx combo, chunked.iselCombo combo))

/-- Split a dataset into tiles and write them to disk (`tile`).  The
parameter `pfx` is the source's `prefix` argument. -/
def tile (ds : Ds α) (path : String) (pfx : String) (chunks : Option (List (String × Nat)))
    (buffer : Buffer) (fs : FS α) : Except String (FS α) :=
  if isfile fs path then .error "`path` cannot be a file!"
  else
    let fs1 := if isdir fs path then fs else makedirs fs path
    let chunked := match chunks with | none => ds | some spec => ds.chunk spec
    .ok ((tileEntries chunked pfx buffer).foldl
      (fun f e => fsWrite f (joinPath path e.1) e.2) fs1)

/-- Cumulative start offsets of a list of chunk lengths (specification
side: the unbuffered starts). -/
def cumStartsAux : Nat → List Nat → List Nat
  | _, [] => []
  | start, l :: ls => start :: cumStartsAux (start + l) ls

/-- Cumulative start offsets, beginning at 0. -/
def cumStarts (lens : List Nat) : List Nat := cumStartsAux 0 lens

/-- Glob pattern matching with the `*` wildcard (first argument is fuel,
always called with enough of it). -/
def globMatchF : Nat → List Char → List Char → Bool
  | 0, _, _ => false
  | _ + 1, [], s => s.isEmpty
  | fuel + 1, '*' :: ps, [] => globMatchF fuel ps []
  | fuel + 1, '*' :: ps, c :: cs =>
    globMatchF fuel ps (c :: cs) || globMatchF fuel ('*' :: ps) cs
  | fuel + 1, p :: ps, c :: cs => p == c && globMatchF fuel ps cs
  | _ + 1, _ :: _, [] => false

/-- Model of `fnmatch`-style matching of one path against a glob pattern
(only the `*` wildcard is modelled; the source never uses `?` or `[]`). -/
def globMatch (pat s : String) : Bool :=
  globMatchF (pat.length + s.length + 1) pat.toList s.toList

/-- Model of `glob.glob`: the stored file paths matching the pattern, in
file-system order. -/
def globFS (fs : FS α) (pat : String) : List String :=
  (fs.files.map (·.1)).filter (fun p => globMatch pat p)

/-- The `datasets` argument of `auto_merge`: a glob expression, a list of
file paths, or a list of already-open datasets. -/
inductive MergeInput (α : Type) where
  | pat (p : String)
  | paths (l : List String)
  | dss (l : List (Ds α))

/-- First coordinate value of a fragment along a dimension
(`ds[dim].values[0]`); total with default 0, used only after the
emptiness / shared-dimension checks of the reduction pass. -/
def firstCoordOf (d : Ds α) (dim : String) : Int :=
  if dim == d.dim then d.coords.headD 0 else 0

/-- Lexicographic comparison of Python tuples of numbers (used as sort
keys). -/
def lexLt : List Int → List Int → Bool
  | [], [] => false
  | [], _ :: _ => true
  | _ :: _, [] => false
  | a :: as, b :: bs => if a < b then true else if b < a then false else lexLt as bs

/-- Stable insertion into a sorted list: the new element goes after every
element that compares strictly below it (so equal keys keep their original
relative order, as with Python's stable `sorted`). -/
def insertSorted (lt : β → β → Bool) (x : β) : List β → List β
  | [] => [x]
  | y :: ys => if lt y x then y :: insertSorted lt x ys else x :: y :: ys

/-- Stable sort by a boolean strict comparison (models Python `sorted`). -/
def sortStable (lt : β → β → Bool) : List β → List β
  | [] => []
  | x :: xs => insertSorted lt x (sortStable lt xs)

/-- Consecutive grouping by an equality test (models `itertools.groupby`:
a new group starts whenever the key changes). -/
def groupRuns (eqv : β → β → Bool) : List β → List (List β)
  | [] => []
  | x :: xs =>
    match groupRuns eqv xs with
    | [] => [[x]]
    | [] :: gs => [x] :: gs
    | (y :: g) :: gs => if eqv x y then (x :: y :: g) :: gs else [x] :: (y :: g) :: gs

/-- Index of the first occurrence of the minimum (`np.argmin`); the
accumulator holds the next index, the best index and the best value. -/
def argminAux : List Nat → Nat → Nat → Nat → Nat
  | [], _, bi, _ => bi
  | v :: vs, i, bi, bv =>
    if v < bv then argminAux vs (i + 1) i v else argminAux vs (i + 1) bi bv

/-- First index of the minimum of a list (call sites guard emptiness, as
`np.argmin` raises on an empty array). -/
def argminNat : List Nat → Nat
  | [] => 0
  | v :: vs => argminAux vs 1 0 v

/-- Resolve the overlap for the concatenation axis for one group, threading
the per-axis `buf_cache`: `'auto'` uses the cached value if present and
otherwise computes `int((np.argmin(np.abs(diff)) + 1) / 2)` from
`diff = group[1][dim].values - group[0][dim].values[-1]` and caches it; an
integer buffer is used directly; a mapping is looked up with default 0.
The float division of the source is exact for the magnitudes involved and
is modelled as natural division. -/
def resolveBuffer (buffer : Buffer) (cache : List (String × Int)) (dim : String)
    (group : List (Ds α)) : Except String (Int × List (String × Int)) :=
  match buffer with
  | .auto =>
    match cache.lookup dim with
    | some v => .ok (v, cache)
    | none =>
      match group.get? 1, group.get? 0 with
      | none, _ => .error "list index out of range"
      | _, none => .error "list index out of range"
      | some g1, some g0 =>
        match g0.coords.getLast? with
        | none => .error "index -1 is out of bounds"
        | some last =>
          if g1.coords.isEmpty then .error "attempt to get argmin of an empty sequence"
          else
            let diff := g1.coords.map (fun x => x - last)
            let bf : Int := ((argminNat (diff.map Int.natAbs)) + 1) / 2
            .ok (bf, (dim, bf) :: cache)
  | .int b => .ok (b, cache)
  | .dict d => .ok ((d.lookup dim).getD 0, cache)

/-- The overlap-trimming step of the reduction pass: if the resolved
buffer is positive, the first fragment loses its last `buf` entries, every
interior fragment loses its first and last `buf` entries, and the last
fragment loses its first `buf` entries (for a single-fragment group the
first and the last fragment are the same dataset, which therefore appears
twice, once per trim). -/
def applyBuffer (buf : Int) (group : List (Ds α)) : List (Ds α) :=
  if 0 < buf then
    match group with
    | [] => []
    | x :: xs =>
      [x.isel1 ⟨none, some (-buf)⟩]
        ++ ((x :: xs).drop 1).dropLast.map (·.isel1 ⟨some buf, some (-buf)⟩)
        ++ [(xs.getLastD x).isel1 ⟨some buf, none⟩]
  else group

/-- Concatenation of the fragments of one group along the concatenation
axis (`xr.auto_combine(group, concat_dim)`; the fragments of a group share
their single dimension, for which `auto_combine` reduces to concatenation
of coordinates and values). -/
def concatAll (_dim : String) : List (Ds α) → Except String (Ds α)
  | [] => .error "cannot combine an empty list"
  | g :: gs => .ok (gs.foldl
      (fun a x => { dim := a.dim, coords := a.coords ++ x.coords,
                    data := a.data ++ x.data, chunks := a.chunks ++ x.chunks }) g)

/-- One reduction pass (`_combine_along_last_dim`): find the split
dimensions (first-coordinate value differs across fragments), concatenate
along the last of them, sorting all fragments by their first-coordinate
tuple and grouping consecutively by the tuple excluding the concatenation
axis; each group is trimmed (per the resolved overlap) and concatenated.
Fragments with an empty coordinate axis or a dimension differing from the
first fragment's make the source raise (`IndexError` / `KeyError`); this
is checked up front. -/
def combineAlongLastDim (buffer : Buffer) (cache : List (String × Int))
    (dss : List (Ds α)) : Except String (List (Ds α) × List (String × Int)) :=
  match dss.head? with
  | none => .error "list index out of range"
  | some d0 =>
    if dss.any (fun d => d.coords.isEmpty) then .error "index 0 is out of bounds"
    else if dss.any (fun d => !(d.dim == d0.dim)) then .error "KeyError"
    else
      let split_dims := d0.dims.filter
        (fun dn => ((dss.map (fun x => firstCoordOf x dn)).dedup.length > 1))
      match split_dims.getLast? with
      | none => .error "list index out of range"
      | some concat_dim =>
        let key := fun (x : Ds α) => split_dims.map (firstCoordOf x)
        let sorted_ds := sortStable (fun a b => lexLt (key a) (key b)) dss
        let key2 := fun (x : Ds α) => split_dims.dropLast.map (firstCoordOf x)
        let groups := groupRuns (fun a b => key2 a == key2 b) sorted_ds
        groups.foldl
          (fun acc g => do
            let (ms, c) ← acc
            let (buf, c') ← resolveBuffer buffer c concat_dim g
            let m ← concatAll concat_dim (applyBuffer buf g)
            .ok (ms ++ [m], c'))
          (.ok ([], cache))

/-- The `while len(merged) > 1` reduction loop, threading the `'auto'`
buffer cache.  The first argument is fuel; exhausting it models
non-termination of the source's loop (a pass that does not shrink the
fragment list). -/
def mergeLoop (buffer : Buffer) : Nat → List (String × Int) → List (Ds α) →
    Except String (Ds α)
  | _, _, [] => .error "list index out of range"
  | _, _, [d] => .ok d
  | 0, _, _ :: _ :: _ => .error "merge loop failed to converge"
  | fuel + 1, cache, d :: d' :: ds => do
    let (merged, cache') ← combineAlongLastDim buffer cache (d :: d' :: ds)
    mergeLoop buffer fuel cache' merged

/-- Automatically merge a split dataset (`auto_merge`): normalize the
input (expand a glob expression; open a path list as datasets), fail with
`'No files found!'` on an empty list, then reduce until a single dataset
remains.  Closing the opened file handles has no observable effect in the
model. -/
def auto_merge (fs : FS α) (input : MergeInput α) (buffer : Buffer) :
    Except String (Ds α) :=
  let listed : List String ⊕ List (Ds α) :=
    match input with
    | .pat p => .inl (globFS fs p)
    | .paths l => .inl l
    | .dss l => .inr l
  match listed with
  | .inl paths =>
    if paths.isEmpty then .error "No files found!"
    else do
      let dss ← paths.mapM (openDs fs)
      mergeLoop buffer dss.length [] dss
  | .inr dss =>
    if dss.isEmpty then .error "No files found!"
    else mergeLoop buffer dss.length [] dss

/-! The algorithm adaptation module (`nd/algorithm.py`).  Python call
values are opaque elements of a type `α`; a bound-arguments mapping may
additionally hold the tuple / dict caught by the `*args` / `**kwargs`
buckets. -/

/-- A value in a bound-arguments mapping: an ordinary argument value, the
tuple bound to a `*args` parameter, or the dict bound to a `**kwargs`
parameter. -/
inductive PyVal (α : Type) where
  | scalar (a : α)
  | tuple (l : List α)
  | dict (l : List (String × α))
deriving DecidableEq

/-- A declared positional-or-keyword parameter of a Python callable: its
name and whether it carries a default value. -/
structure Param where
  name : String
  hasDefault : Bool
deriving DecidableEq

/-- Parameter kinds relevant to the source (positional-or-keyword,
`*args`, `**kwargs`). -/
inductive PKind where
  | pok
  | varPos
  | varKw
deriving DecidableEq

/-- Rank of a kind in the order `inspect.Signature` requires. -/
def kindRank : PKind → Nat
  | .pok => 0
  | .varPos => 1
  | .varKw => 2

/-- The `parameters.update(...)` step of `extract_arguments`: the catch-all
parameters `*args` / `**kwargs` replace any same-named declared parameter
in place (a dict update keyed by name) and are appended otherwise. -/
def updatedParams (ps : List Param) : List (String × PKind × Bool) :=
  ps.map (fun p =>
      if p.name == "args" then ("args", PKind.varPos, false)
      else if p.name == "kwargs" then ("kwargs", PKind.varKw, false)
      else (p.name, PKind.pok, p.hasDefault))
    ++ (if ps.any (·.name == "args") then [] else [("args", PKind.varPos, false)])
    ++ (if ps.any (·.name == "kwargs") then [] else [("kwargs", PKind.varKw, false)])

/-- Adjacent non-decreasing check on a list of ranks. -/
def ranksMono : List Nat → Bool
  | [] => true
  | [_] => true
  | a :: b :: rest => a ≤ b && ranksMono (b :: rest)

/-- Validation performed by the `inspect.Signature` constructor when
`sig.replace(parameters=...)` is evaluated: kinds must appear in
non-decreasing order, and no required positional parameter may follow one
with a default. -/
def validParamList (l : List (String × PKind × Bool)) : Bool :=
  ranksMono (l.map (fun e => kindRank e.2.1)) &&
    ranksMono (l.filterMap (fun e =>
      if e.2.1 = PKind.pok then some (if e.2.2 then 1 else 0) else none))

/-- The keyword phase of `Signature.bind`: walk the parameters not bound
positionally, in order; bind each from `kwargs` when its name is present,
skip it when it has a default, and fail on the first required parameter
left unbound. -/
def kwPhase (remaining : List Param) (kwargs : List (String × α)) :
    Except String (List (String × α)) :=
  match remaining with
  | [] => .ok []
  | p :: ps =>
    match kwargs.lookup p.name with
    | some v => do
      let rest ← kwPhase ps kwargs
      .ok ((p.name, v) :: rest)
    | none =>
      if p.hasDefault then kwPhase ps kwargs
      else .error ("missing a required argument: " ++ p.name)

/-- Model of `inspect.Signature.bind` for a signature made of
positional-or-keyword parameters `poks` optionally followed by `*args`
and `**kwargs`: positional values bind to `poks` in order (failing when a
bound name is also passed by keyword), excess positional values go to the
`args` bucket, keyword values bind to the remaining parameters, excess
keyword values go to the `kwargs` bucket; the returned mapping (the
`bound.arguments` dict) lists positionally bound parameters, the non-empty
`args` bucket, keyword-bound parameters in declaration order, and the
non-empty `kwargs` bucket. -/
def pyBind (poks : List Param) (varPos varKw : Bool) (args : List α)
    (kwargs : List (String × α)) : Except String (List (String × PyVal α)) :=
  let posPairs := poks.zip args
  if posPairs.any (fun pv => kwargs.any (fun kv => kv.1 == pv.1.name)) then
    .error "got multiple values for argument"
  else
    let extraArgs := args.drop poks.length
    if ¬extraArgs.isEmpty ∧ ¬varPos then .error "too many positional arguments"
    else
      let remaining := poks.drop args.length
      match kwPhase remaining kwargs with
      | .error e => .error e
      | .ok kwPairs =>
        let leftoverKw := kwargs.filter (fun kv => !remaining.any (fun p => p.name == kv.1))
        if ¬leftoverKw.isEmpty ∧ ¬varKw then .error "got an unexpected keyword argument"
        else
          .ok (posPairs.map (fun pv => (pv.1.name, PyVal.scalar pv.2))
            ++ (if extraArgs.isEmpty then [] else [("args", PyVal.tuple extraArgs)])
            ++ kwPairs.map (fun kv => (kv.1, PyVal.scalar kv.2))
            ++ (if leftoverKw.isEmpty then [] else [("kwargs", PyVal.dict leftoverKw)]))

/-- Given a function's declared parameters and raw `(args, kwargs)`,
return the bound-arguments mapping with leftovers captured under the
`args` / `kwargs` keys (`extract_arguments`): the first parameter is
dropped when one is named `self`, the catch-all parameters are merged into
the signature by dict update, the rebuilt signature is validated, and the
raw values are bound to it. -/
def extract_arguments (fnParams : List Param) (args : List α)
    (kwargs : List (String × α)) : Except String (List (String × PyVal α)) :=
  let ps := if fnParams.any (·.name == "self") then fnParams.drop 1 else fnParams
  let ups := updatedParams ps
  if ¬(validParamList ups) then .error "wrong parameter order"
  else
    pyBind (ups.filterMap (fun e => if e.2.1 = PKind.pok then some ⟨e.1, e.2.2⟩ else none))
      (ups.any (fun e => e.2.1 = PKind.varPos)) (ups.any (fun e => e.2.1 = PKind.varKw))
      args kwargs

/-- A class conforming to the Algorithm contract, as the bridge sees it:
the subclass flag, documentation and naming metadata, the declared
parameter lists of `__init__` and `apply` (receivers included), the
constructor (as a raw call on positional and keyword arguments) and the
`apply` method (as a call of an instance on a bound keyword mapping). -/
structure AlgoClass (α ι ρ : Type) where
  isAlgorithm : Bool
  doc : Option String
  modName : String
  clsName : String
  initParams : List Param
  applyParams : List Param
  construct : List α → List (String × α) → ι
  applyFn : ι → List (String × PyVal α) → ρ

/-- The callable value produced by `wrap_algorithm`: its call behavior and
the metadata set on it (`__module__`, `__name__`, `__doc__`,
`__signature__`). -/
structure Wrapped (α ι ρ : Type) where
  call : List α → List (String × α) → Except String ρ
  modName : String
  fname : String
  doc : String
  signature : List Param

/-- Validation performed when the flattened signature is rebuilt via
`sig_init.replace(parameters=...)`: duplicate parameter names are
rejected, and a required parameter may not follow one with a default. -/
def validSignatureParams (ps : List Param) : Bool :=
  (ps.map (·.name)).dedup.length == ps.length &&
    ranksMono (ps.map (fun p => if p.hasDefault then 1 else 0))

/-- Return the function representation of an Algorithm derived class
(`wrap_algorithm`): reject a non-subclass; build the wrapper that binds
the raw call to `apply`, treats the leftover buckets as constructor
arguments, constructs the instance and invokes `apply`; set the module,
name, generated docstring (string concatenation with a `None` docstring
raises) and the flattened signature.  The source-code-location surgery on
the wrapper's code object is documentation-cosmetic and is not modelled. -/
def wrap_algorithm (A : AlgoClass α ι ρ) (nm : Option String) :
    Except String (Wrapped α ι ρ) :=
  if ¬A.isAlgorithm then .error "Class must be an instance of `nd.Algorithm`."
  else
    match A.doc with
    | none => .error "can only concatenate str (not \"NoneType\") to str"
    | some d =>
      let sigParams := A.applyParams.drop 1 ++ A.initParams.drop 1
      if ¬(validSignatureParams sigParams) then .error "invalid signature"
      else
        .ok { call := fun args kwargs => do
                let akw ← extract_arguments A.applyParams args kwargs
                let init_args := match akw.lookup "args" with
                  | some (.tuple l) => l
                  | _ => []
                let init_kwargs := match akw.lookup "kwargs" with
                  | some (.dict l) => l
                  | _ => []
                let rest := akw.filter (fun e => !(e.1 == "args") && !(e.1 == "kwargs"))
                .ok (A.applyFn (A.construct init_args init_kwargs) rest)
              modName := A.modName
              fname := nm.getD "_wrapper"
              doc := "Wrapper for :class:`" ++ A.modName ++ "." ++ A.clsName ++ "`.\n    " ++ d
              signature := sigParams }

/-- An instantiated algorithm: its `apply` step as a dataset
transformation. -/
structure AlgorithmInstance (α : Type) where
  apply : α → α

/-- Run `apply` in parallel across a dimension
(`Algorithm.parallel_apply`): the source delegates with
`return parallel(self.apply, dim=dim, chunks=jobs)` — the helper receives
the apply method, the dimension and the job count, and the `ds` argument
is not passed on.  The external helper `parallel` is modelled from the
spec as an arbitrary function of exactly the arguments the call site
supplies, taken here as a parameter `par`. -/
def AlgorithmInstance.parallel_apply (par : (α → α) → String → Option Nat → β)
    (self : AlgorithmInstance α) (ds : α) (dim : String) (jobs : Option Nat) : β :=
  par self.apply dim jobs

/-! Claim-side auxiliary definitions used in the theorem statements. -/

/-- Whether the normalization step of `auto_merge` (glob expansion or the
given list) yields an empty fragment list. -/
def normalizesToEmpty (fs : FS α) (input : MergeInput α) : Bool :=
  match input with
  | .pat p => (globFS fs p).isEmpty
  | .paths l => l.isEmpty
  | .dss l => l.isEmpty

/-- The binding-success condition for positional-or-keyword parameters
`ps` with catch-all buckets available: no parameter receives both a
positional and a keyword value, and every required parameter not covered
positionally is passed by keyword. -/
def bindsOk (ps : List Param) (args : List β) (kwargs : List (String × β)) : Bool :=
  (ps.zip args).all (fun pv => !kwargs.any (fun kv => kv.1 == pv.1.name)) &&
    (ps.drop args.length).all
      (fun p => p.hasDefault || kwargs.any (fun kv => kv.1 == p.name))

/-- A required parameter is left unbound even with the catch-all buckets
available. -/
def requiredMissing (ps : List Param) (args : List β) (kwargs : List (String × β)) : Bool :=
  (ps.drop args.length).any
    (fun p => !p.hasDefault && !kwargs.any (fun kv => kv.1 == p.name))

/-- The bound-arguments mapping described by the specification: declared
parameters bound positionally then by keyword, extra positional values
under the reserved `args` key, extra keyword values under the reserved
`kwargs` key. -/
def boundWithLeftovers (ps : List Param) (args : List β) (kwargs : List (String × β)) :
    List (String × PyVal β) :=
  (ps.zip args).map (fun pv => (pv.1.name, PyVal.scalar pv.2))
    ++ (if (args.drop ps.length).isEmpty then []
        else [("args", PyVal.tuple (args.drop ps.length))])
    ++ (ps.drop args.length).filterMap
        (fun p => (kwargs.lookup p.name).map (fun v => (p.name, PyVal.scalar v)))
    ++ (if (kwargs.filter
            (fun kv => !(ps.drop args.length).any (fun p => p.name == kv.1))).isEmpty then []
        else [("kwargs", PyVal.dict (kwargs.filter
            (fun kv => !(ps.drop args.length).any (fun p => p.name == kv.1))))])

/-- The coordinate (or data) segments cut out of a list by the buffered
slices of the chunk lengths `cs` starting at cumulative offset `st`
(proof-side view of the fragments produced by `tile`). -/
def fragsOf (l : List γ) (b : Int) (st : Nat) (cs : List Nat) : List (List γ) :=
  (buildSlicesAux b st cs).map (fun sl => pySlice sl.start sl.stop l)

/-! Concrete sample data for the witnesses and counterexamples. -/

/-- A sample dataset with four points and two balanced chunks. -/
def dsRT : Ds Int := ⟨"x", [0, 1, 2, 3], [10, 20, 30, 40], [2, 2]⟩

/-- A sample dataset with unbalanced chunks `[3, 1]`. -/
def dsCX : Ds Int := ⟨"x", [0, 1, 2, 3], [10, 20, 30, 40], [3, 1]⟩

/-- A sample two-point fragment. -/
def dsC9 : Ds Int := ⟨"x", [0, 1], [5, 6], [2]⟩

/-- A sample fragment covering positions 0 to 11 of a unit-spaced grid
(chunk length 8 with buffer 4). -/
def dsG0 : Ds Int := ⟨"x", [0, 1, 2, 3, 4, 5, 6, 7, 8, 9, 10, 11],
  [0, 0, 0, 0, 0, 0, 0, 0, 0, 0, 0, 0], [12]⟩

/-- A sample fragment covering positions 4 to 15 of the same grid. -/
def dsG1 : Ds Int := ⟨"x", [4, 5, 6, 7, 8, 9, 10, 11, 12, 13, 14, 15],
  [0, 0, 0, 0, 0, 0, 0, 0, 0, 0, 0, 0], [12]⟩

/-- An empty file system. -/
def fsEmptyI : FS Int := ⟨[], []⟩

/-- A file system in which the path `out` already exists as a regular
file. -/
def fsWithFile : FS Int := ⟨[("out", dsRT)], []⟩

/-- A sample Algorithm-conforming class whose constructor and apply step
record their raw arguments (constructor parameters `p1, p2`, apply
parameters `ds, q1`). -/
def algoW : AlgoClass Int (List Int × List (String × Int))
    ((List Int × List (String × Int)) × List (String × PyVal Int)) :=
  { isAlgorithm := true
    doc := some "Sample algorithm."
    modName := "mymod"
    clsName := "MyAlgo"
    initParams := [⟨"self", false⟩, ⟨"p1", false⟩, ⟨"p2", false⟩]
    applyParams := [⟨"self", false⟩, ⟨"ds", false⟩, ⟨"q1", false⟩]
    construct := fun a k => (a, k)
    applyFn := fun inst rest => (inst, rest) }

/-- A sample Algorithm-conforming class without a docstring. -/
def algoNoDoc : AlgoClass Int Int Int :=
  { isAlgorithm := true
    doc := none
    modName := "mymod"
    clsName := "NoDoc"
    initParams := [⟨"self", false⟩]
    applyParams := [⟨"self", false⟩, ⟨"ds", false⟩]
    construct := fun _ _ => 0
    applyFn := fun _ _ => 0 }

/-! Theorems. -/

/-- C4: the source of `parallel_apply` is
`return parallel(self.apply, dim=dim, chunks=jobs)` — under the
specification's contract for the external helper (`parallel(apply_fn,
dim, chunks) -> merged result`), the helper never receives the `ds`
argument, so the result of `parallel_apply` is the same for any two
supplied datasets; the claim that the supplied dataset determines the
result is contradicted by the code. -/
theorem c4_parallel_apply_ignores_dataset
    (par : (α → α) → String → Option Nat → β) (self : AlgorithmInstance α)
    (ds₁ ds₂ : α) (dim : String) (jobs : Option Nat) :
    self.parallel_apply par ds₁ dim jobs = self.parallel_apply par ds₂ dim jobs := rfl

/-- C8: when the normalization step of `auto_merge` (glob expansion or the
given list) yields an empty fragment list, the operation fails with the
`'No files found!'` error; in particular a glob pattern matching zero
files fails this way. -/
theorem c8_merge_empty_fails_not_found (fs : FS α) (input : MergeInput α)
    (buffer : Buffer) (h : normalizesToEmpty fs input = true) :
    auto_merge fs input buffer = .error "No files found!" := by
  cases input with
  | pat p =>
    simp only [normalizesToEmpty] at h
    simp [auto_merge, h]
  | paths l =>
    simp only [normalizesToEmpty] at h
    simp [auto_merge, h]
  | dss l =>
    simp only [normalizesToEmpty] at h
    simp [auto_merge, h]

/-- Witness for C8 at a concrete input: a glob pattern over an empty file
system matches zero files and merging fails with `'No files found!'`. -/
theorem c8_witness :
    normalizesToEmpty fsEmptyI (MergeInput.pat "tiles/*.nc") = true ∧
      auto_merge fsEmptyI (MergeInput.pat "tiles/*.nc") Buffer.auto =
        .error "No files found!" :=
  ⟨by decide, c8_merge_empty_fails_not_found fsEmptyI (MergeInput.pat "tiles/*.nc")
    Buffer.auto (by decide)⟩

/-- Directories are untouched by the write loop of `tile`. -/
theorem dirs_foldl_fsWrite (entries : List (String × Ds α)) (path : String) (fs0 : FS α) :
    ((entries.foldl (fun f e => fsWrite f (joinPath path e.1) e.2) fs0)).dirs = fs0.dirs := by
  induction entries generalizing fs0 with
  | nil => rfl
  | cons e rest ih => simpa [fsWrite] using ih _

/-- C7: if the destination path exists as a regular file, `tile` fails
with the `ValueError` message and writes nothing (the error is raised
before any directory creation or write); if the path does not exist at
all, the directory and its parents are created and the tiles are then
written successfully. -/
theorem c7_tile_path_precondition (fs : FS α) (ds : Ds α) (path pfx : String)
    (chunks : Option (List (String × Nat))) (buffer : Buffer) :
    (isfile fs path = true →
      tile ds path pfx chunks buffer fs = .error "`path` cannot be a file!") ∧
    (isfile fs path = false → isdir fs path = false →
      ∃ fs', tile ds path pfx chunks buffer fs = .ok fs' ∧
        ∀ q ∈ pathPrefixes path, q ∈ fs'.dirs) := by
  constructor
  · intro h
    simp [tile, h]
  · intro h1 h2
    refine ⟨(tileEntries (match chunks with | none => ds | some spec => ds.chunk spec)
        pfx buffer).foldl (fun f e => fsWrite f (joinPath path e.1) e.2)
        (makedirs fs path), ?_, ?_⟩
    · simp [tile, h1, h2]
    · intro q hq
      rw [dirs_foldl_fsWrite]
      simp [makedirs, hq]

/-- Witness for C7 at concrete inputs: `out` exists as a regular file and
`tile` fails with the exact message; on an empty file system the
destination directory (with parents) is created and tiling succeeds. -/
theorem c7_witness :
    (isfile fsWithFile "out" = true ∧
      tile dsRT "out" "part" none (Buffer.int 0) fsWithFile =
        .error "`path` cannot be a file!") ∧
    (isfile fsEmptyI "a/b" = false ∧ isdir fsEmptyI "a/b" = false ∧
      ∃ fs', tile dsRT "a/b" "part" none (Buffer.int 0) fsEmptyI = .ok fs' ∧
        ∀ q ∈ pathPrefixes "a/b", q ∈ fs'.dirs) :=
  ⟨⟨by decide, (c7_tile_path_precondition fsWithFile dsRT "out" "part" none
      (Buffer.int 0)).1 (by decide)⟩,
    ⟨by decide, by decide, (c7_tile_path_precondition fsEmptyI dsRT "a/b" "part" none
      (Buffer.int 0)).2 (by decide) (by decide)⟩⟩

/-- The Cartesian product over a single dimension is the list of
singleton combinations. -/
theorem dictProduct_single (d : String) (ss : List Slc) :
    dictProduct [(d, ss)] = ss.map (fun s => [(d, s)]) := by
  induction ss with
  | nil => rfl
  | cons s rest ih => simpa [dictProduct] using ih

/-- The starts stored by the slice-building loop are the clipped buffered
starts `max 0 (k - b)` of the cumulative offsets `k`. -/
theorem buildSlicesAux_map_start (b : Int) (cs : List Nat) (st : Nat) :
    (buildSlicesAux b st cs).map (·.start) =
      (cumStartsAux st cs).map (fun (k : Nat) => some (max 0 ((k : Int) - b))) := by
  induction cs generalizing st with
  | nil => rfl
  | cons c rest ih => simp [buildSlicesAux, cumStartsAux, ih]

/-- C1 (amended): for every dataset and every integer buffer `b`, the name
component that `tile` writes for a chunk with cumulative start offset `k`
along the dimension is `{dim}_{max(0, k - b)}` — the clipped buffered
slice start, not the unbuffered `k`; for `b > 0` and `k > 0` the encoded
start therefore differs from `k` and depends on the buffer value. -/
theorem c1_tile_names_use_clipped_start (ds : Ds α) (pfx : String) (b : Int) :
    (tileEntries ds pfx (Buffer.int b)).map Prod.fst =
      (cumStarts ds.chunks).map
        (fun (k : Nat) =>
          pfx ++ "." ++ (ds.dim ++ "_" ++ toString (max 0 ((k : Int) - b))) ++ ".nc") := by
  simp only [tileEntries, resolveTileBuf, buildSlices, dictProduct_single,
    List.map_map]
  have h := buildSlicesAux_map_start b ds.chunks 0
  have h2 : (buildSlicesAux b 0 ds.chunks).map
      (fun s => tileName pfx [(ds.dim, s)]) =
      ((buildSlicesAux b 0 ds.chunks).map (·.start)).map
        (fun o => pfx ++ "." ++ (ds.dim ++ "_" ++ startRepr o) ++ ".nc") := by
    simp only [List.map_map]
    apply List.map_congr_left
    intro s _
    simp [tileName, String.intercalate, String.intercalate.go]
  have h3 : (Prod.fst ∘ (fun combo => (tileName pfx combo, ds.iselCombo combo)) ∘
      fun s => [(ds.dim, s)]) = fun s => tileName pfx [(ds.dim, s)] := rfl
  rw [h3, h2, h, cumStarts, List.map_map]
  apply List.map_congr_left
  intro k _
  simp [startRepr]

/-- Counterexample for C1 as stated: with chunks `[2, 2]` the second chunk
has cumulative start 2, yet with buffer 1 the written tile is named
`part.x_1.nc` (the clipped start `max(0, 2-1)`), not `part.x_2.nc`; the
encoded start also changes with the buffer value. -/
theorem c1_counterexample :
    (tileEntries dsRT "part" (Buffer.int 1)).map Prod.fst =
        ["part.x_0.nc", "part.x_1.nc"] ∧
      (tileEntries dsRT "part" (Buffer.int 0)).map Prod.fst =
        ["part.x_0.nc", "part.x_2.nc"] ∧
      (tileEntries dsRT "part" (Buffer.int 1)).map Prod.fst ≠
        (tileEntries dsRT "part" (Buffer.int 0)).map Prod.fst := by
  refine ⟨by decide, by decide, by decide⟩

/-- Evaluation of a Python slice with no start and a negative stop. -/
theorem pySlice_none_neg (b : Int) (hb : 0 < b) (l : List γ) :
    pySlice none (some (-b)) l = l.take (l.length - b.toNat) := by
  simp only [pySlice, pyIndex]
  rw [if_pos (by omega)]
  rw [List.drop_zero]
  congr 1
  omega

/-- Evaluation of a Python slice with a non-negative start and no stop. -/
theorem pySlice_nonneg_none (b : Int) (hb : 0 ≤ b) (l : List γ) :
    pySlice (some b) none l = l.drop (min b.toNat l.length) := by
  simp only [pySlice, pyIndex]
  rw [if_neg (by omega)]
  rw [List.take_length]

/-- C9 (amended): during overlap trimming with resolved buffer `b > 0`, a
group containing exactly one fragment is not passed through unchanged:
the fragment appears as both the first and the last element, so the
trimming step hands two copies — one without its last `b` entries, one
without its first `b` entries — to the concatenation; the merged result
differs from the original fragment whenever the fragment is non-empty and
its length along the axis is not exactly `2 * b` (at exactly `2 * b` the
two trimmed copies happen to reassemble the fragment). -/
theorem c9_singleton_group_duplicated (f : Ds α) (b : Int) (hb : 0 < b)
    (hlen : 0 < f.coords.length) (hne : (f.coords.length : Int) ≠ 2 * b) :
    applyBuffer b [f] = [f.isel1 ⟨none, some (-b)⟩, f.isel1 ⟨some b, none⟩] ∧
      (concatAll f.dim (applyBuffer b [f])).map Ds.coords ≠ .ok f.coords := by
  have hshape : applyBuffer b [f] =
      [f.isel1 ⟨none, some (-b)⟩, f.isel1 ⟨some b, none⟩] := by
    simp [applyBuffer, hb]
  refine ⟨hshape, ?_⟩
  rw [hshape]
  simp only [concatAll, List.foldl, Except.map, Except.ok.injEq]
  intro heq
  injection heq with heq
  have hl := congrArg List.length heq
  simp only [List.length_append, Ds.isel1, pySlice_none_neg b hb,
    pySlice_nonneg_none b (le_of_lt hb), List.length_take, List.length_drop] at hl
  omega

/-- Witness for C9 (amended) at a concrete input: a twelve-point fragment
with buffer 1 is split into the two trimmed copies and their merge
differs from the fragment. -/
theorem c9_witness :
    applyBuffer 1 [dsG0] = [dsG0.isel1 ⟨none, some (-1)⟩, dsG0.isel1 ⟨some 1, none⟩] ∧
      (concatAll dsG0.dim (applyBuffer 1 [dsG0])).map Ds.coords ≠ .ok dsG0.coords :=
  c9_singleton_group_duplicated dsG0 1 (by decide) (by decide) (by decide)

/-- Counterexample for C9 as stated: the fragment with coordinates
`[0, 1]` and buffer 1 has length exactly `2 * b`; the trimming step does
produce the two copies, yet their concatenation reproduces the original
fragment exactly, so the merged result does not differ from it. -/
theorem c9_counterexample :
    applyBuffer 1 [dsC9] = [dsC9.isel1 ⟨none, some (-1)⟩, dsC9.isel1 ⟨some 1, none⟩] ∧
      (concatAll "x" (applyBuffer 1 [dsC9])).map Ds.dim = .ok dsC9.dim ∧
      (concatAll "x" (applyBuffer 1 [dsC9])).map Ds.coords = .ok dsC9.coords ∧
      (concatAll "x" (applyBuffer 1 [dsC9])).map Ds.data = .ok dsC9.data := by
  refine ⟨by decide, rfl, rfl, rfl⟩

/-- The argmin accumulator is unchanged when no later value improves on
the current best. -/
theorem argminAux_no_change (l : List Nat) :
    ∀ (i bi bv : Nat), (∀ x ∈ l, bv ≤ x) → argminAux l i bi bv = bi := by
  induction l with
  | nil => intro i bi bv _; rfl
  | cons v vs ih =>
    intro i bi bv h
    have hv : ¬v < bv := by
      have := h v (List.mem_cons_self v vs)
      omega
    simp only [argminAux, if_neg hv]
    exact ih _ _ _ (fun x hx => h x (List.mem_cons_of_mem v hx))

/-- The argmin accumulator finds the first zero of the remaining list when
the current best is positive and every value before the zero is positive. -/
theorem argminAux_finds_zero (l : List Nat) :
    ∀ (k i bi bv : Nat), 0 < bv → l.getD k 0 = 0 → k < l.length →
      (∀ j, j < k → 0 < l.getD j 0) → argminAux l i bi bv = i + k := by
  induction l with
  | nil => intro k i bi bv _ _ hk _; simp at hk
  | cons v vs ih =>
    intro k i bi bv hbv hk hkl hj
    cases k with
    | zero =>
      have hv : v = 0 := by simpa using hk
      subst hv
      simp only [argminAux, if_pos hbv]
      simpa using argminAux_no_change vs (i + 1) i 0 (fun x _ => Nat.zero_le x)
    | succ k =>
      have hv : 0 < v := by simpa using hj 0 (Nat.succ_pos k)
      have hk' : vs.getD k 0 = 0 := by simpa using hk
      have hkl' : k < vs.length := by simpa using hkl
      have hj' : ∀ j, j < k → 0 < vs.getD j 0 := by
        intro j hjk
        simpa using hj (j + 1) (by omega)
      by_cases hlt : v < bv
      · simp only [argminAux, if_pos hlt]
        rw [ih k (i + 1) i v hv hk' hkl' hj']
        omega
      · simp only [argminAux, if_neg hlt]
        rw [ih k (i + 1) bi bv hbv hk' hkl' hj']
        omega

/-- `np.argmin` returns the index of the first zero when every earlier
value is positive. -/
theorem argminNat_first_zero (l : List Nat) (k : Nat) (hk : l.getD k 0 = 0)
    (hkl : k < l.length) (hj : ∀ j, j < k → 0 < l.getD j 0) :
    argminNat l = k := by
  cases l with
  | nil => simp at hkl
  | cons v vs =>
    cases k with
    | zero =>
      have hv : v = 0 := by simpa using hk
      subst hv
      simpa [argminNat] using
        argminAux_no_change vs 1 0 0 (fun x _ => Nat.zero_le x)
    | succ k =>
      have hv : 0 < v := by simpa using hj 0 (Nat.succ_pos k)
      have hk' : vs.getD k 0 = 0 := by simpa using hk
      have hkl' : k < vs.length := by simpa using hkl
      have hj' : ∀ j, j < k → 0 < vs.getD j 0 := by
        intro j hjk
        simpa using hj (j + 1) (by omega)
      simp only [argminNat]
      rw [argminAux_finds_zero vs k 1 0 v hv hk' hkl' hj']
      omega

/-- `np.argmin` returns 0 when the head is a minimum. -/
theorem argminNat_head_min (v : Nat) (vs : List Nat) (h : ∀ x ∈ vs, v ≤ x) :
    argminNat (v :: vs) = 0 := by
  simpa [argminNat] using argminAux_no_change vs 1 0 v h

/-- Indexing a mapped range. -/
theorem getD_map_range (g : Nat → Nat) (L j : Nat) (h : j < L) :
    ((List.range L).map g).getD j 0 = g j := by
  rw [List.getD_eq_getElem?_getD]
  simp [List.getElem?_range, h]

/-- C3: `'auto'` overlap resolution uses the cached per-axis value when
present (so later groups and passes on the axis reuse it without
recomputation); on a cache miss it computes
`int((np.argmin(np.abs(diff)) + 1) / 2)` from the coordinate difference
between the second fragment and the first fragment's last coordinate and
stores it in the cache; and for fragments with uniformly spaced
coordinates produced with overlap width `b` (chunk boundary `c1`, spacing
`s > 0`), the inferred overlap is exactly `b`. -/
theorem c3_auto_buffer_inference {α : Type} (dim : String) :
    (∀ (cache : List (String × Int)) (g : List (Ds α)) (v : Int),
      cache.lookup dim = some v →
        resolveBuffer Buffer.auto cache dim g = .ok (v, cache)) ∧
    (∀ (cache : List (String × Int)) (g0 g1 : Ds α) (rest : List (Ds α))
        (p0 s : Int) (c1 b L : Nat),
      cache.lookup dim = none → 0 < s → b ≤ c1 → 0 < c1 + b → 0 < L → 2 * b ≤ L →
      g0.coords = (List.range (c1 + b)).map (fun (i : Nat) => p0 + (i : Int) * s) →
      g1.coords = (List.range L).map (fun (j : Nat) => p0 + ((c1 - b + j : Nat) : Int) * s) →
      resolveBuffer Buffer.auto cache dim (g0 :: g1 :: rest) =
        .ok ((b : Int), (dim, (b : Int)) :: cache)) := by
  constructor
  · intro cache g v hv
    simp [resolveBuffer, hv]
  · intro cache g0 g1 rest p0 s c1 b L hc hs hbc hcb hL hbL h0 h1
    have hm : c1 + b = (c1 + b - 1) + 1 := by omega
    have hlast : g0.coords.getLast? = some (p0 + ((c1 + b - 1 : Nat) : Int) * s) := by
      rw [h0, hm, List.range_succ, List.map_append]
      simp
    have hlen1 : g1.coords.length = L := by rw [h1]; simp
    have hne : g1.coords.isEmpty = false := by
      cases hcoords : g1.coords with
      | nil => rw [hcoords] at hlen1; simp at hlen1; omega
      | cons a as => rfl
    have hdl : (g1.coords.map
          (fun x => x - (p0 + ((c1 + b - 1 : Nat) : Int) * s))).map Int.natAbs
        = (List.range L).map
            (fun (j : Nat) => ((j : Int) + 1 - 2 * b).natAbs * s.natAbs) := by
      rw [h1, List.map_map, List.map_map]
      apply List.map_congr_left
      intro j _
      have e1 : ((c1 - b + j : Nat) : Int) = (c1 : Int) - b + j := by omega
      have e2 : ((c1 + b - 1 : Nat) : Int) = (c1 : Int) + b - 1 := by omega
      have e3 : (p0 + ((c1 - b + j : Nat) : Int) * s) - (p0 + ((c1 + b - 1 : Nat) : Int) * s)
          = ((j : Int) + 1 - 2 * b) * s := by
        rw [e1, e2]; ring
      simp only [Function.comp_apply, e3, Int.natAbs_mul]
    have hargmin : argminNat ((g1.coords.map
          (fun x => x - (p0 + ((c1 + b - 1 : Nat) : Int) * s))).map Int.natAbs)
        = 2 * b - 1 := by
      rw [hdl]
      rcases Nat.eq_zero_or_pos b with hb0 | hbpos
      · subst hb0
        obtain ⟨L', rfl⟩ : ∃ L', L = L' + 1 := ⟨L - 1, by omega⟩
        rw [List.range_succ_eq_map, List.map_cons, List.map_map]
        rw [argminNat_head_min]
        intro x hx
        simp only [List.mem_map, List.mem_range] at hx
        obtain ⟨j, _, rfl⟩ := hx
        simp only [Nat.cast_zero, Function.comp_apply]
        have ha : ((0 : Int) + 1 - 2 * 0).natAbs = 1 := by decide
        have hb : (((Nat.succ j : Nat) : Int) + 1 - 2 * 0).natAbs = j + 2 := by omega
        rw [ha, hb]
        have hspos : 0 < s.natAbs := Int.natAbs_pos.mpr (by omega)
        nlinarith
      · apply argminNat_first_zero
        · rw [getD_map_range _ _ _ (by omega)]
          have hz : ((2 * b - 1 : Nat) : Int) + 1 - 2 * b = 0 := by omega
          rw [hz]
          simp
        · simpa using (by omega : 2 * b - 1 < L)
        · intro j hj
          rw [getD_map_range _ _ _ (by omega)]
          have h1' : ((j : Int) + 1 - 2 * b).natAbs = 2 * b - 1 - j := by omega
          rw [h1']
          have hspos := Int.natAbs_pos.mpr (show s ≠ 0 by omega)
          have hpos : 0 < 2 * b - 1 - j := by omega
          positivity
    simp only [resolveBuffer, hc, List.get?_cons_succ, List.get?_cons_zero, hlast, hne,
      Bool.false_eq_true, if_false, hargmin]
    have hfin : (((2 * b - 1 : Nat) : Int) + 1) / 2 = (b : Int) := by omega
    rw [hfin]

/-- Witness for C3 at a concrete input: unit spacing, chunk boundary 8,
overlap 4 (the fragments cover positions 0 to 11 and 4 to 15); the empty
cache is filled with the inferred overlap 4, and with the cache filled the
value is reused for any group. -/
theorem c3_witness :
    resolveBuffer Buffer.auto [] "x" [dsG0, dsG1] = .ok ((4 : Int), [("x", (4 : Int))]) ∧
      resolveBuffer Buffer.auto [("x", (4 : Int))] "x" [dsG1, dsG0] =
        .ok ((4 : Int), [("x", (4 : Int))]) :=
  ⟨(c3_auto_buffer_inference "x").2 [] dsG0 dsG1 [] 0 1 8 4 12 (by decide) (by decide)
      (by decide) (by decide) (by decide) (by decide) (by decide) (by decide),
    (c3_auto_buffer_inference "x").1 [("x", (4 : Int))] [dsG1, dsG0] 4 (by decide)⟩

/-- A lookup succeeds exactly when some key matches. -/
theorem lookup_isSome_any (kwargs : List (String × β)) (n : String) :
    (kwargs.lookup n).isSome = kwargs.any (fun kv => kv.1 == n) := by
  induction kwargs with
  | nil => rfl
  | cons kv rest ih =>
    by_cases h : n = kv.1
    · subst h
      simp [List.lookup]
    · have h1 : (n == kv.1) = false := beq_eq_false_iff_ne.mpr h
      have h2 : (kv.1 == n) = false := beq_eq_false_iff_ne.mpr (Ne.symm h)
      simp [List.lookup, h1, h2, ih]

/-- The keyword phase succeeds when every remaining parameter has a
default or is passed by keyword, producing the keyword-bound pairs in
declaration order. -/
theorem kwPhase_ok (remaining : List Param) (kwargs : List (String × β))
    (h : ∀ p ∈ remaining, p.hasDefault = true ∨ (kwargs.lookup p.name).isSome = true) :
    kwPhase remaining kwargs =
      .ok (remaining.filterMap
        (fun p => (kwargs.lookup p.name).map (fun v => (p.name, v)))) := by
  induction remaining with
  | nil => rfl
  | cons p ps ih =>
    have hp := h p (List.mem_cons_self p ps)
    have ih' := ih (fun q hq => h q (List.mem_cons_of_mem p hq))
    cases hl : kwargs.lookup p.name with
    | some v =>
      simp only [kwPhase, hl, ih', List.filterMap_cons, Option.map_some']
      rfl
    | none =>
      rw [hl] at hp
      have hpd : p.hasDefault = true := by simpa using hp
      simp only [kwPhase, hl, hpd, ih', List.filterMap_cons, Option.map_none']
      rfl

/-- The keyword phase fails when some remaining parameter is required and
not passed by keyword. -/
theorem kwPhase_error (remaining : List Param) (kwargs : List (String × β))
    (h : ∃ p ∈ remaining, p.hasDefault = false ∧ kwargs.lookup p.name = none) :
    ∃ e, kwPhase remaining kwargs = .error e := by
  induction remaining with
  | nil => obtain ⟨p, hp, _⟩ := h; simp at hp
  | cons p ps ih =>
    obtain ⟨q, hq, hqd, hql⟩ := h
    rcases List.mem_cons.mp hq with rfl | hq'
    · cases hl : kwargs.lookup q.name with
      | some v =>
        rw [hl] at hql
        simp at hql
      | none =>
        simp [kwPhase, hl, hqd]
    · cases hl : kwargs.lookup p.name with
      | some v =>
        obtain ⟨e, he⟩ := ih ⟨q, hq', hqd, hql⟩
        refine ⟨e, ?_⟩
        simp only [kwPhase, hl, he]
        rfl
      | none =>
        cases hd : p.hasDefault with
        | false => simp [kwPhase, hl, hd]
        | true =>
          obtain ⟨e, he⟩ := ih ⟨q, hq', hqd, hql⟩
          refine ⟨e, ?_⟩
          simp [kwPhase, hl, hd, he]

/-- The rebuilt parameter dictionary when the declared names avoid the
reserved bucket names: the catch-all parameters are appended. -/
theorem updatedParams_clean (ps : List Param)
    (h : ∀ p ∈ ps, p.name ≠ "args" ∧ p.name ≠ "kwargs") :
    updatedParams ps = ps.map (fun p => (p.name, PKind.pok, p.hasDefault))
      ++ [("args", PKind.varPos, false), ("kwargs", PKind.varKw, false)] := by
  have h1 : ps.any (·.name == "args") = false := by
    rw [List.any_eq_false]
    intro p hp
    simpa using (h p hp).1
  have h2 : ps.any (·.name == "kwargs") = false := by
    rw [List.any_eq_false]
    intro p hp
    simpa using (h p hp).2
  unfold updatedParams
  rw [h1, h2]
  simp only [if_neg (Bool.false_ne_true), List.append_assoc, List.singleton_append]
  congr 1
  apply List.map_congr_left
  intro p hp
  rw [if_neg (by simpa using (h p hp).1), if_neg (by simpa using (h p hp).2)]

/-- A list of zeros followed by the catch-all ranks is monotone. -/
theorem ranksMono_zeros (l : List Nat) (h : ∀ x ∈ l, x = 0) :
    ranksMono (l ++ [1, 2]) = true := by
  induction l with
  | nil => decide
  | cons a rest ih =>
    have ha : a = 0 := h a (List.mem_cons_self a rest)
    subst ha
    cases rest with
    | nil => decide
    | cons b rest' =>
      have hb : b = 0 := h b (List.mem_cons_of_mem 0 (List.mem_cons_self b rest'))
      subst hb
      show (decide (0 ≤ 0) && ranksMono (0 :: (rest' ++ [1, 2]))) = true
      rw [Bool.and_eq_true]
      exact ⟨by decide, ih (fun x hx => h x (List.mem_cons_of_mem 0 hx))⟩

/-- A filterMap that always succeeds is a map. -/
theorem filterMap_all_some (g : γ → δ) (l : List γ) :
    l.filterMap (fun x => some (g x)) = l.map g := by
  induction l with
  | nil => rfl
  | cons x xs ih => simp [ih]

/-- The rebuilt signature of `extract_arguments` passes the
`inspect.Signature` validation when the declared defaults are ordered. -/
theorem validParamList_clean (ps : List Param)
    (hdef : ranksMono (ps.map (fun p => if p.hasDefault then 1 else 0)) = true) :
    validParamList (ps.map (fun p => (p.name, PKind.pok, p.hasDefault))
      ++ [("args", PKind.varPos, false), ("kwargs", PKind.varKw, false)]) = true := by
  unfold validParamList
  rw [Bool.and_eq_true]
  constructor
  · have h1 : ((ps.map (fun p => (p.name, PKind.pok, p.hasDefault))
        ++ [("args", PKind.varPos, false), ("kwargs", PKind.varKw, false)]).map
          (fun e => kindRank e.2.1))
        = (ps.map (fun _ => 0)) ++ [1, 2] := by
      rw [List.map_append, List.map_map]
      rfl
    rw [h1]
    refine ranksMono_zeros _ ?_
    intro x hx
    rcases List.mem_map.mp hx with ⟨p, _, rfl⟩
    rfl
  · have h2 : ((ps.map (fun p => (p.name, PKind.pok, p.hasDefault))
        ++ [("args", PKind.varPos, false), ("kwargs", PKind.varKw, false)]).filterMap
          (fun e => if e.2.1 = PKind.pok then some (if e.2.2 then 1 else 0) else none))
        = ps.map (fun p => if p.hasDefault then 1 else 0) := by
      rw [List.filterMap_append]
      have hr : ([(("args" : String), PKind.varPos, false),
          ("kwargs", PKind.varKw, false)].filterMap
            (fun e => if e.2.1 = PKind.pok then some (if e.2.2 then 1 else 0) else none))
          = ([] : List Nat) := by decide
      rw [hr, List.append_nil, List.filterMap_map]
      have hc : ((fun (e : String × PKind × Bool) =>
            if e.2.1 = PKind.pok then some (if e.2.2 then 1 else 0) else none) ∘
          (fun (p : Param) => (p.name, PKind.pok, p.hasDefault)))
          = fun (p : Param) => some (if p.hasDefault then 1 else 0) := by
        funext p
        simp
      rw [hc, filterMap_all_some]
    rw [h2]
    exact hdef

/-- The positional-or-keyword parameters recovered from the rebuilt
dictionary are the declared parameters. -/
theorem poks_clean (ps : List Param) :
    ((ps.map (fun p => (p.name, PKind.pok, p.hasDefault))
      ++ [("args", PKind.varPos, false), ("kwargs", PKind.varKw, false)]).filterMap
        (fun e => if e.2.1 = PKind.pok then some (⟨e.1, e.2.2⟩ : Param) else none)) = ps := by
  rw [List.filterMap_append]
  have hr : ([(("args" : String), PKind.varPos, false),
      ("kwargs", PKind.varKw, false)].filterMap
        (fun e => if e.2.1 = PKind.pok then some (⟨e.1, e.2.2⟩ : Param) else none))
      = ([] : List Param) := by decide
  rw [hr, List.append_nil, List.filterMap_map]
  have hc : ((fun (e : String × PKind × Bool) =>
        if e.2.1 = PKind.pok then some ((⟨e.1, e.2.2⟩ : Param)) else none) ∘
      (fun (p : Param) => (p.name, PKind.pok, p.hasDefault)))
      = fun (p : Param) => some p := by
    funext p
    simp
  rw [hc, filterMap_all_some]
  exact List.map_id ps

/-- When the binding conditions hold, `pyBind` (with both catch-all
buckets available) succeeds with the mapping that captures leftovers
under the reserved keys. -/
theorem pyBind_ok (ps : List Param) (args : List β) (kwargs : List (String × β))
    (hok : bindsOk ps args kwargs = true) :
    pyBind ps true true args kwargs = .ok (boundWithLeftovers ps args kwargs) := by
  rw [bindsOk, Bool.and_eq_true] at hok
  obtain ⟨hA, hB⟩ := hok
  have hany : (ps.zip args).any (fun pv => kwargs.any (fun kv => kv.1 == pv.1.name)) = false := by
    cases hx : (ps.zip args).any (fun pv => kwargs.any (fun kv => kv.1 == pv.1.name)) with
    | false => rfl
    | true =>
      exfalso
      obtain ⟨pv, hpv, hp⟩ := List.any_eq_true.mp hx
      have hall := List.all_eq_true.mp hA pv hpv
      rw [hp] at hall
      exact absurd hall (by decide)
  have hkw : kwPhase (ps.drop args.length) kwargs =
      .ok ((ps.drop args.length).filterMap
        (fun p => (kwargs.lookup p.name).map (fun v => (p.name, v)))) := by
    apply kwPhase_ok
    intro p hp
    have hall := List.all_eq_true.mp hB p hp
    rw [Bool.or_eq_true] at hall
    rcases hall with h | h
    · exact Or.inl h
    · exact Or.inr (by rw [lookup_isSome_any]; exact h)
  have hcomp : (((ps.drop args.length).filterMap
        (fun p => (kwargs.lookup p.name).map (fun v => (p.name, v)))).map
          (fun kv => (kv.1, PyVal.scalar kv.2)))
      = (ps.drop args.length).filterMap
          (fun p => (kwargs.lookup p.name).map (fun v => (p.name, PyVal.scalar v))) := by
    induction ps.drop args.length with
    | nil => rfl
    | cons p rest ih =>
      cases hl : kwargs.lookup p.name <;>
        simp [List.filterMap_cons, hl, ih]
  simp only [pyBind, hany, Bool.false_eq_true, if_false, not_true, and_false, hkw,
    if_neg (fun h => h.2 trivial : ¬(¬(args.drop ps.length).isEmpty = true ∧ ¬True)),
    boundWithLeftovers, hcomp]

/-- When a required parameter is missing, `pyBind` fails. -/
theorem pyBind_error (ps : List Param) (args : List β) (kwargs : List (String × β))
    (hmiss : requiredMissing ps args kwargs = true) :
    ∃ e, pyBind ps true true args kwargs = .error e := by
  cases hany : (ps.zip args).any (fun pv => kwargs.any (fun kv => kv.1 == pv.1.name)) with
  | true =>
    refine ⟨"got multiple values for argument", ?_⟩
    simp only [pyBind, hany, if_true]
  | false =>
    rw [requiredMissing, List.any_eq_true] at hmiss
    obtain ⟨p, hp, hpp⟩ := hmiss
    rw [Bool.and_eq_true] at hpp
    obtain ⟨hd, hkwany⟩ := hpp
    have hlook : kwargs.lookup p.name = none := by
      have hs : (kwargs.lookup p.name).isSome = false := by
        rw [lookup_isSome_any]
        simpa using hkwany
      exact Option.not_isSome_iff_eq_none.mp (by simp [hs])
    obtain ⟨e, he⟩ := kwPhase_error (ps.drop args.length) kwargs
      ⟨p, hp, by simpa using hd, hlook⟩
    refine ⟨e, ?_⟩
    simp only [pyBind, hany, Bool.false_eq_true, if_false, he]
    rw [if_neg]
    intro h
    exact h.2 trivial

/-- `extract_arguments` under the standing assumptions on the declared
parameter names: the raw values are bound to the declared parameters with
leftovers captured under the reserved keys. -/
theorem extract_arguments_ok (ps : List Param) (args : List β) (kwargs : List (String × β))
    (hn : ∀ p ∈ ps, p.name ≠ "self" ∧ p.name ≠ "args" ∧ p.name ≠ "kwargs")
    (hdef : ranksMono (ps.map (fun p => if p.hasDefault then 1 else 0)) = true)
    (hok : bindsOk ps args kwargs = true) :
    extract_arguments ps args kwargs = .ok (boundWithLeftovers ps args kwargs) := by
  have hself : ps.any (·.name == "self") = false := by
    rw [List.any_eq_false]
    intro p hp
    simpa using (hn p hp).1
  have hup := updatedParams_clean ps (fun p hp => ⟨(hn p hp).2.1, (hn p hp).2.2⟩)
  unfold extract_arguments
  rw [hself]
  simp only [Bool.false_eq_true, if_false, hup]
  rw [if_neg (by simp [validParamList_clean ps hdef]), poks_clean]
  have hvp : ((ps.map (fun p => (p.name, PKind.pok, p.hasDefault))
      ++ [("args", PKind.varPos, false), ("kwargs", PKind.varKw, false)]).any
        (fun e => e.2.1 = PKind.varPos)) = true := by
    rw [List.any_eq_true]
    exact ⟨("args", PKind.varPos, false), by simp, by simp⟩
  have hvk : ((ps.map (fun p => (p.name, PKind.pok, p.hasDefault))
      ++ [("args", PKind.varPos, false), ("kwargs", PKind.varKw, false)]).any
        (fun e => e.2.1 = PKind.varKw)) = true := by
    rw [List.any_eq_true]
    exact ⟨("kwargs", PKind.varKw, false), by simp, by simp⟩
  rw [hvp, hvk]
  exact pyBind_ok ps args kwargs hok

/-- `extract_arguments` fails when a required parameter is missing. -/
theorem extract_arguments_error (ps : List Param) (args : List β)
    (kwargs : List (String × β))
    (hn : ∀ p ∈ ps, p.name ≠ "self" ∧ p.name ≠ "args" ∧ p.name ≠ "kwargs")
    (hdef : ranksMono (ps.map (fun p => if p.hasDefault then 1 else 0)) = true)
    (hmiss : requiredMissing ps args kwargs = true) :
    ∃ e, extract_arguments ps args kwargs = .error e := by
  have hself : ps.any (·.name == "self") = false := by
    rw [List.any_eq_false]
    intro p hp
    simpa using (hn p hp).1
  have hup := updatedParams_clean ps (fun p hp => ⟨(hn p hp).2.1, (hn p hp).2.2⟩)
  unfold extract_arguments
  rw [hself]
  simp only [Bool.false_eq_true, if_false, hup]
  rw [if_neg (by simp [validParamList_clean ps hdef]), poks_clean]
  have hvp : ((ps.map (fun p => (p.name, PKind.pok, p.hasDefault))
      ++ [("args", PKind.varPos, false), ("kwargs", PKind.varKw, false)]).any
        (fun e => e.2.1 = PKind.varPos)) = true := by
    rw [List.any_eq_true]
    exact ⟨("args", PKind.varPos, false), by simp, by simp⟩
  have hvk : ((ps.map (fun p => (p.name, PKind.pok, p.hasDefault))
      ++ [("args", PKind.varPos, false), ("kwargs", PKind.varKw, false)]).any
        (fun e => e.2.1 = PKind.varKw)) = true := by
    rw [List.any_eq_true]
    exact ⟨("kwargs", PKind.varKw, false), by simp, by simp⟩
  rw [hvp, hvk]
  exact pyBind_error ps args kwargs hmiss

/-- C6: for a callable with declared parameters `ps` (names avoiding the
receiver and the reserved bucket names, defaults validly ordered) and any
raw `(args, kwargs)`: if the pair binds after adding the catch-all
buckets, `extract_arguments` returns the mapping in which extra
positional values appear under the reserved `args` key and extra keyword
values under the reserved `kwargs` key; and if a required parameter is
missing even with leftovers allowed, it fails with an error. -/
theorem c6_extract_arguments_leftovers (ps : List Param) (args : List β)
    (kwargs : List (String × β))
    (hn : ∀ p ∈ ps, p.name ≠ "self" ∧ p.name ≠ "args" ∧ p.name ≠ "kwargs")
    (hdef : ranksMono (ps.map (fun p => if p.hasDefault then 1 else 0)) = true) :
    (bindsOk ps args kwargs = true →
      extract_arguments ps args kwargs = .ok (boundWithLeftovers ps args kwargs)) ∧
    (requiredMissing ps args kwargs = true →
      ∃ e, extract_arguments ps args kwargs = .error e) :=
  ⟨fun hok => extract_arguments_ok ps args kwargs hn hdef hok,
    fun hmiss => extract_arguments_error ps args kwargs hn hdef hmiss⟩

/-- Witness for C6 at a concrete input: a function declaring `(a, b)`
called with an extra positional and an extra keyword value returns the
extras under the reserved buckets; called with nothing it fails (both
parameters are required). -/
theorem c6_witness :
    (bindsOk [⟨"a", false⟩, ⟨"b", false⟩] [(1 : Int), 2, 3] [("c", (7 : Int))] = true ∧
      extract_arguments [⟨"a", false⟩, ⟨"b", false⟩] [(1 : Int), 2, 3] [("c", (7 : Int))] =
        .ok [("a", PyVal.scalar 1), ("b", PyVal.scalar 2),
          ("args", PyVal.tuple [3]), ("kwargs", PyVal.dict [("c", 7)])]) ∧
    (requiredMissing [⟨"a", false⟩, ⟨"b", false⟩] ([] : List Int) [] = true ∧
      ∃ e, extract_arguments [⟨"a", false⟩, ⟨"b", false⟩] ([] : List Int) [] = .error e) := by
  constructor
  · refine ⟨by decide, ?_⟩
    have h := (c6_extract_arguments_leftovers [⟨"a", false⟩, ⟨"b", false⟩]
      [(1 : Int), 2, 3] [("c", (7 : Int))] (by decide) (by decide)).1 (by decide)
    rw [h]
    rfl
  · refine ⟨by decide, ?_⟩
    exact (c6_extract_arguments_leftovers [⟨"a", false⟩, ⟨"b", false⟩]
      ([] : List Int) [] (by decide) (by decide)).2 (by decide)

/-- Lookups skip a prefix none of whose keys match. -/
theorem lookup_append_none (l₁ l₂ : List (String × γ)) (n : String)
    (h : ∀ e ∈ l₁, e.1 ≠ n) : (l₁ ++ l₂).lookup n = l₂.lookup n := by
  induction l₁ with
  | nil => rfl
  | cons e l ih =>
    have he : (n == e.1) = false :=
      beq_eq_false_iff_ne.mpr (Ne.symm (h e (List.mem_cons_self e l)))
    simp only [List.cons_append, List.lookup, he]
    exact ih (fun e' he' => h e' (List.mem_cons_of_mem e he'))

/-- The reserved `args` entry of the bound mapping: present exactly when
there are extra positional values, in which case it holds their tuple. -/
theorem bound_lookup_args (aps : List Param) (args : List β) (kwargs : List (String × β))
    (hn : ∀ p ∈ aps, p.name ≠ "args" ∧ p.name ≠ "kwargs") :
    (boundWithLeftovers aps args kwargs).lookup "args"
      = if (args.drop aps.length).isEmpty then none
        else some (PyVal.tuple (args.drop aps.length)) := by
  unfold boundWithLeftovers
  rw [List.append_assoc, List.append_assoc]
  rw [lookup_append_none]
  · cases hE : (args.drop aps.length).isEmpty with
    | false =>
      simp only [hE, Bool.false_eq_true, if_false]
      rfl
    | true =>
      simp only [hE, if_true, List.nil_append]
      rw [lookup_append_none]
      · cases hF : (kwargs.filter
            (fun kv => !(aps.drop args.length).any (fun p => p.name == kv.1))).isEmpty with
        | true => simp [hF, List.lookup]
        | false => simp [hF, List.lookup]
      · intro e he
        obtain ⟨p, hp, he⟩ := List.mem_filterMap.mp he
        obtain ⟨v, _, rfl⟩ := Option.map_eq_some'.mp he
        exact (hn p (List.drop_subset _ _ hp)).1
  · intro e he
    obtain ⟨pv, hpv, rfl⟩ := List.mem_map.mp he
    exact (hn pv.1 (List.of_mem_zip hpv).1).1

/-- The reserved `kwargs` entry of the bound mapping: present exactly when
there are leftover keyword values, in which case it holds their dict. -/
theorem bound_lookup_kwargs (aps : List Param) (args : List β) (kwargs : List (String × β))
    (hn : ∀ p ∈ aps, p.name ≠ "args" ∧ p.name ≠ "kwargs") :
    (boundWithLeftovers aps args kwargs).lookup "kwargs"
      = if (kwargs.filter
            (fun kv => !(aps.drop args.length).any (fun p => p.name == kv.1))).isEmpty then none
        else some (PyVal.dict (kwargs.filter
            (fun kv => !(aps.drop args.length).any (fun p => p.name == kv.1)))) := by
  unfold boundWithLeftovers
  rw [List.append_assoc, List.append_assoc]
  rw [lookup_append_none]
  · rw [lookup_append_none]
    · rw [lookup_append_none]
      · cases hF : (kwargs.filter
            (fun kv => !(aps.drop args.length).any (fun p => p.name == kv.1))).isEmpty with
        | true => simp [hF, List.lookup]
        | false => simp [hF, List.lookup]
      · intro e he
        obtain ⟨p, hp, he⟩ := List.mem_filterMap.mp he
        obtain ⟨v, _, rfl⟩ := Option.map_eq_some'.mp he
        exact (hn p (List.drop_subset _ _ hp)).2
    · intro e he
      cases hE : (args.drop aps.length).isEmpty with
      | true => rw [hE] at he; simp at he
      | false =>
        rw [hE] at he
        simp only [Bool.false_eq_true, if_false, List.mem_singleton] at he
        subst he
        exact (by decide : ("args" : String) ≠ "kwargs")
  · intro e he
    obtain ⟨pv, hpv, rfl⟩ := List.mem_map.mp he
    exact (hn pv.1 (List.of_mem_zip hpv).1).2

/-- Removing the reserved bucket entries from the bound mapping leaves the
positionally and keyword-bound parameters, in order. -/
theorem bound_filter_rest (aps : List Param) (args : List β) (kwargs : List (String × β))
    (hn : ∀ p ∈ aps, p.name ≠ "args" ∧ p.name ≠ "kwargs") :
    (boundWithLeftovers aps args kwargs).filter
        (fun e => !(e.1 == "args") && !(e.1 == "kwargs"))
      = (aps.zip args).map (fun pv => (pv.1.name, PyVal.scalar pv.2))
        ++ (aps.drop args.length).filterMap
            (fun p => (kwargs.lookup p.name).map (fun v => (p.name, PyVal.scalar v))) := by
  unfold boundWithLeftovers
  rw [List.append_assoc, List.append_assoc]
  rw [List.filter_append, List.filter_append, List.filter_append]
  have hP : ((aps.zip args).map (fun pv => (pv.1.name, PyVal.scalar pv.2))).filter
      (fun e => !(e.1 == "args") && !(e.1 == "kwargs"))
      = (aps.zip args).map (fun pv => (pv.1.name, PyVal.scalar pv.2)) := by
    rw [List.filter_eq_self]
    intro e he
    obtain ⟨pv, hpv, rfl⟩ := List.mem_map.mp he
    have := hn pv.1 (List.of_mem_zip hpv).1
    simp [beq_eq_false_iff_ne.mpr this.1, beq_eq_false_iff_ne.mpr this.2]
  have hK : ((aps.drop args.length).filterMap
      (fun p => (kwargs.lookup p.name).map (fun v => (p.name, PyVal.scalar v)))).filter
      (fun e => !(e.1 == "args") && !(e.1 == "kwargs"))
      = (aps.drop args.length).filterMap
          (fun p => (kwargs.lookup p.name).map (fun v => (p.name, PyVal.scalar v))) := by
    rw [List.filter_eq_self]
    intro e he
    obtain ⟨p, hp, hpe⟩ := List.mem_filterMap.mp he
    obtain ⟨v, _, rfl⟩ := Option.map_eq_some'.mp hpe
    have := hn p (List.drop_subset _ _ hp)
    simp [beq_eq_false_iff_ne.mpr this.1, beq_eq_false_iff_ne.mpr this.2]
  have hA : ((if (args.drop aps.length).isEmpty then []
      else [("args", PyVal.tuple (args.drop aps.length))]) : List (String × PyVal β)).filter
      (fun e => !(e.1 == "args") && !(e.1 == "kwargs")) = [] := by
    cases hE : (args.drop aps.length).isEmpty <;> simp
  have hW : ((if (kwargs.filter
      (fun kv => !(aps.drop args.length).any (fun p => p.name == kv.1))).isEmpty then []
      else [("kwargs", PyVal.dict (kwargs.filter
        (fun kv => !(aps.drop args.length).any (fun p => p.name == kv.1))))] :
        List (String × PyVal β))).filter
      (fun e => !(e.1 == "args") && !(e.1 == "kwargs")) = [] := by
    cases hF : (kwargs.filter
      (fun kv => !(aps.drop args.length).any (fun p => p.name == kv.1))).isEmpty <;> simp
  rw [hP, hK, hA, hW, List.nil_append, List.append_nil]

/-- Dropping the receiver named `self` before binding. -/
theorem extract_arguments_cons_self (selfp : Param) (aps : List Param)
    (hs : selfp.name = "self") (hn : aps.any (·.name == "self") = false)
    (args : List β) (kwargs : List (String × β)) :
    extract_arguments (selfp :: aps) args kwargs = extract_arguments aps args kwargs := by
  unfold extract_arguments
  have h1 : (selfp :: aps).any (·.name == "self") = true := by
    simp [hs]
  rw [h1, hn]
  simp

/-- C5: for a class conforming to the Algorithm contract (receiver named
`self`, apply-step parameter names avoiding the reserved bucket names,
flattened signature valid), the bridged callable declares the apply-step
parameters (receiver excluded, original order) followed by the
constructor parameters (receiver excluded, original order); calling it
binds the raw values to the apply-step parameters, treating values landing
in the leftover-positional and leftover-keyword buckets as constructor
arguments, constructs the instance with exactly those, and invokes the
instance's `apply` with the apply-bound arguments unchanged. -/
theorem c5_wrap_algorithm_flattening {α ι ρ : Type} (A : AlgoClass α ι ρ)
    (nm : Option String) (d : String) (selfp : Param) (aps : List Param)
    (h1 : A.isAlgorithm = true)
    (h2 : A.doc = some d)
    (h3 : A.applyParams = selfp :: aps)
    (h4 : selfp.name = "self")
    (h5 : ∀ p ∈ aps, p.name ≠ "self" ∧ p.name ≠ "args" ∧ p.name ≠ "kwargs")
    (h6 : ranksMono (aps.map (fun p => if p.hasDefault then 1 else 0)) = true)
    (h7 : validSignatureParams (aps ++ A.initParams.drop 1) = true) :
    ((wrap_algorithm A nm).map Wrapped.signature = .ok (aps ++ A.initParams.drop 1)) ∧
    (∀ (args : List α) (kwargs : List (String × α)),
      bindsOk aps args kwargs = true →
      (wrap_algorithm A nm).bind (fun w => w.call args kwargs) =
        .ok (A.applyFn
          (A.construct (args.drop aps.length)
            (kwargs.filter (fun kv => !(aps.drop args.length).any (fun p => p.name == kv.1))))
          ((aps.zip args).map (fun pv => (pv.1.name, PyVal.scalar pv.2))
            ++ (aps.drop args.length).filterMap
                (fun p => (kwargs.lookup p.name).map
                  (fun v => (p.name, PyVal.scalar v)))))) := by
  have hsig : A.applyParams.drop 1 ++ A.initParams.drop 1 = aps ++ A.initParams.drop 1 := by
    rw [h3]
    rfl
  have hwrap : wrap_algorithm A nm = .ok
      { call := fun args kwargs => do
          let akw ← extract_arguments A.applyParams args kwargs
          let init_args := match akw.lookup "args" with
            | some (.tuple l) => l
            | _ => []
          let init_kwargs := match akw.lookup "kwargs" with
            | some (.dict l) => l
            | _ => []
          let rest := akw.filter (fun e => !(e.1 == "args") && !(e.1 == "kwargs"))
          .ok (A.applyFn (A.construct init_args init_kwargs) rest)
        modName := A.modName
        fname := nm.getD "_wrapper"
        doc := "Wrapper for :class:`" ++ A.modName ++ "." ++ A.clsName ++ "`.\n    " ++ d
        signature := aps ++ A.initParams.drop 1 } := by
    unfold wrap_algorithm
    rw [h2]
    simp only [h1, Bool.not_true, Bool.false_eq_true, if_false, hsig, h7,
      Bool.not_false, if_true, eq_self_iff_true, not_true]
  constructor
  · rw [hwrap]
    rfl
  · intro args kwargs hok
    have hany : aps.any (·.name == "self") = false := by
      rw [List.any_eq_false]
      intro p hp
      simpa using (h5 p hp).1
    have hext : extract_arguments A.applyParams args kwargs =
        .ok (boundWithLeftovers aps args kwargs) := by
      rw [h3, extract_arguments_cons_self selfp aps h4 hany]
      exact extract_arguments_ok aps args kwargs h5 h6 hok
    have hn2 : ∀ p ∈ aps, p.name ≠ "args" ∧ p.name ≠ "kwargs" :=
      fun p hp => ⟨(h5 p hp).2.1, (h5 p hp).2.2⟩
    rw [hwrap]
    show (do
        let akw ← extract_arguments A.applyParams args kwargs
        let init_args := match akw.lookup "args" with
          | some (.tuple l) => l
          | _ => []
        let init_kwargs := match akw.lookup "kwargs" with
          | some (.dict l) => l
          | _ => []
        let rest := akw.filter
          (fun (e : String × PyVal α) => !(e.1 == "args") && !(e.1 == "kwargs"))
        .ok (A.applyFn (A.construct init_args init_kwargs) rest)) = _
    rw [hext]
    show Except.ok (A.applyFn (A.construct
        (match (boundWithLeftovers aps args kwargs).lookup "args" with
          | some (.tuple l) => l
          | _ => [])
        (match (boundWithLeftovers aps args kwargs).lookup "kwargs" with
          | some (.dict l) => l
          | _ => []))
        ((boundWithLeftovers aps args kwargs).filter
          (fun (e : String × PyVal α) => !(e.1 == "args") && !(e.1 == "kwargs")))) = _
    rw [bound_lookup_args aps args kwargs hn2, bound_lookup_kwargs aps args kwargs hn2,
      bound_filter_rest aps args kwargs hn2]
    cases hE : (args.drop aps.length).isEmpty with
    | true =>
      cases hF : (kwargs.filter
          (fun kv => !(aps.drop args.length).any (fun p => p.name == kv.1))).isEmpty with
      | true =>
        simp only [if_true]
        rw [List.isEmpty_iff.mp hE, List.isEmpty_iff.mp hF]
      | false =>
        simp only [if_true, Bool.false_eq_true, if_false]
        rw [List.isEmpty_iff.mp hE]
    | false =>
      cases hF : (kwargs.filter
          (fun kv => !(aps.drop args.length).any (fun p => p.name == kv.1))).isEmpty with
      | true =>
        simp only [if_true, Bool.false_eq_true, if_false]
        rw [List.isEmpty_iff.mp hF]
      | false =>
        simp only [Bool.false_eq_true, if_false]

/-- Witness for C5 at a concrete input: constructor `(self, p1, p2)`,
apply step `(self, ds, q1)`; the bridged signature is `(ds, q1, p1, p2)`
and a call with positional values `(100, 7, 1, 2)` constructs the
instance with `(1, 2)` and applies with `ds = 100, q1 = 7`. -/
theorem c5_witness :
    ((wrap_algorithm algoW none).map Wrapped.signature =
      .ok [⟨"ds", false⟩, ⟨"q1", false⟩, ⟨"p1", false⟩, ⟨"p2", false⟩]) ∧
    ((wrap_algorithm algoW none).bind (fun w => w.call [100, 7, 1, 2] []) =
      .ok (([1, 2], []),
        [("ds", PyVal.scalar 100), ("q1", PyVal.scalar 7)])) := by
  have h := c5_wrap_algorithm_flattening algoW none "Sample algorithm." ⟨"self", false⟩
    [⟨"ds", false⟩, ⟨"q1", false⟩] (by decide) (by decide) (by decide) (by decide)
    (by decide) (by decide) (by decide)
  refine ⟨h.1, ?_⟩
  have h2 := h.2 [100, 7, 1, 2] [] (by decide)
  rw [h2]
  rfl

/-- C10: for a class conforming to the Algorithm contract whose docstring
is `None`, `wrap_algorithm` raises while concatenating the generated
docstring (`str + None` is a `TypeError`) instead of returning a bridged
callable. -/
theorem c10_wrap_algorithm_requires_docstring (A : AlgoClass α ι ρ)
    (nm : Option String) (h1 : A.isAlgorithm = true) (h2 : A.doc = none) :
    wrap_algorithm A nm =
      .error "can only concatenate str (not \"NoneType\") to str" := by
  simp [wrap_algorithm, h1, h2]

/-- Witness for C10 at a concrete input: a conforming class without a
docstring makes the bridge fail. -/
theorem c10_witness :
    algoNoDoc.isAlgorithm = true ∧ algoNoDoc.doc = none ∧
      wrap_algorithm algoNoDoc none =
        .error "can only concatenate str (not \"NoneType\") to str" :=
  ⟨by decide, by decide, c10_wrap_algorithm_requires_docstring algoNoDoc none
    (by decide) (by decide)⟩

/-! Lemmas for the split / merge round trip (C2). -/

/-- Evaluation of a Python slice with natural start and stop. -/
theorem pySlice_nat (a e : Nat) (l : List γ) :
    pySlice (some ((a : Nat) : Int)) (some ((e : Nat) : Int)) l
      = (l.take (min e l.length)).drop (min a l.length) := by
  have h1 : pyIndex l.length l.length (some ((e : Nat) : Int)) = min e l.length := by
    simp only [pyIndex]
    rw [if_neg (by omega)]
    omega
  have h2 : pyIndex l.length 0 (some ((a : Nat) : Int)) = min a l.length := by
    simp only [pyIndex]
    rw [if_neg (by omega)]
    omega
  simp only [pySlice, h1, h2]

/-- Evaluation of a Python slice with a non-negative start and a negative
stop. -/
theorem pySlice_pos_neg (b : Int) (hb : 0 < b) (l : List γ) :
    pySlice (some b) (some (-b)) l
      = (l.take (l.length - b.toNat)).drop (min b.toNat l.length) := by
  have h1 : pyIndex l.length l.length (some (-b)) = l.length - b.toNat := by
    simp only [pyIndex]
    rw [if_pos (by omega)]
    omega
  have h2 : pyIndex l.length 0 (some b) = min b.toNat l.length := by
    simp only [pyIndex]
    rw [if_neg (by omega)]
  simp only [pySlice, h1, h2]

/-- The buffered start stored by `tile` is the truncated subtraction. -/
theorem max_zero_sub_cast (st bn : Nat) :
    max 0 ((st : Int) - (bn : Nat)) = ((st - bn : Nat) : Int) := by
  omega

/-- Unfolding of one fragment of `fragsOf`. -/
theorem fragsOf_cons (l : List γ) (bn : Nat) (c st : Nat) (cs : List Nat) :
    fragsOf l (bn : Int) st (c :: cs)
      = pySlice (some ((st - bn : Nat) : Int)) (some ((st + c + bn : Nat) : Int)) l
        :: fragsOf l (bn : Int) (st + c) cs := by
  simp only [fragsOf, buildSlicesAux, List.map_cons]
  rw [max_zero_sub_cast st bn]
  rw [show ((st : Int) + (c : Int) + (bn : Int)) = ((st + c + bn : Nat) : Int) from by
    push_cast
    ring]

/-- The fragments of consecutive chunks, each trimmed of its first `bn`
entries (interior fragments also of their last `bn`), joined back
together, reproduce the tail of the list from the first chunk boundary
on. -/
theorem tailJoin (l : List γ) (bn : Nat) (hb : 1 ≤ bn) :
    ∀ (cs : List Nat) (st : Nat), cs ≠ [] →
      (∀ c ∈ cs, 1 ≤ c ∧ 2 * bn ≤ c) → bn ≤ st → st + cs.sum = l.length →
      ((fragsOf l (bn : Int) st cs).dropLast.map
          (fun t => pySlice (some (bn : Int)) (some (-(bn : Int))) t)
        ++ [pySlice (some (bn : Int)) none ((fragsOf l (bn : Int) st cs).getLastD [])]).flatten
      = l.drop st := by
  intro cs
  induction cs with
  | nil => intro st h; exact absurd rfl h
  | cons c cs' ih =>
    intro st _ hcs hbst hsum
    have hc := hcs c (List.mem_cons_self c cs')
    cases cs' with
    | nil =>
      have hn : st + c = l.length := by simpa using hsum
      rw [fragsOf_cons]
      simp only [fragsOf, buildSlicesAux, List.map_nil, List.dropLast_single,
        List.getLastD_cons, List.getLastD_nil, List.map_nil, List.nil_append,
        List.flatten_cons, List.flatten_nil, List.append_nil]
      rw [pySlice_nat]
      have he : min (st + c + bn) l.length = l.length := by omega
      have ha : min (st - bn) l.length = st - bn := by omega
      rw [he, ha, List.take_length]
      rw [pySlice_nonneg_none _ (by positivity)]
      have hlen2 : (l.drop (st - bn)).length = l.length - (st - bn) := List.length_drop _ _
      rw [hlen2]
      have hmin : min ((bn : Int)).toNat (l.length - (st - bn)) = bn := by omega
      rw [hmin, List.drop_drop]
      congr 1
      omega
    | cons cc css =>
      have hcc := hcs cc (List.mem_cons_of_mem c (List.mem_cons_self cc css))
      have hsum2 : (st + c) + (cc :: css).sum = l.length := by
        simp only [List.sum_cons] at hsum ⊢
        omega
      have hrec := ih (st + c) (by simp)
        (fun x hx => hcs x (List.mem_cons_of_mem c hx)) (by omega) hsum2
      rw [fragsOf_cons]
      obtain ⟨r, rs, hr⟩ : ∃ r rs, fragsOf l (bn : Int) (st + c) (cc :: css) = r :: rs := by
        rw [fragsOf_cons]
        exact ⟨_, _, rfl⟩
      rw [hr] at hrec ⊢
      simp only [List.dropLast_cons₂, List.map_cons, List.cons_append,
        List.flatten_cons, List.getLastD_cons] at hrec ⊢
      rw [hrec]
      have hcbound : st + c + bn ≤ l.length := by
        have h2b : 2 * bn ≤ cc := hcc.2
        simp only [List.sum_cons] at hsum
        omega
      rw [pySlice_nat]
      have he : min (st + c + bn) l.length = st + c + bn := by omega
      have ha : min (st - bn) l.length = st - bn := by omega
      rw [he, ha]
      rw [pySlice_pos_neg _ (by positivity)]
      have hlen3 : ((l.take (st + c + bn)).drop (st - bn)).length = c + 2 * bn := by
        rw [List.length_drop, List.length_take]
        omega
      rw [hlen3]
      have hbn : ((bn : Int)).toNat = bn := by omega
      rw [hbn]
      have hmin : min bn (c + 2 * bn) = bn := by omega
      rw [hmin]
      rw [List.drop_take (st + c + bn) (st - bn) l, List.take_take]
      rw [show (c + 2 * bn - bn) ⊓ (st + c + bn - (st - bn)) = c + bn from by omega]
      rw [List.drop_take (c + bn) bn, List.drop_drop]
      rw [show c + bn - bn = c from by omega]
      rw [show st - bn + bn = st from by omega]
      rw [show st + c = c + st from by omega]
      exact List.drop_take_append_drop' l st c

/-- The first fragment trimmed of its last `bn` entries, followed by the
joined trimmed remaining fragments, reproduces the whole list. -/
theorem fullJoin (l : List γ) (bn : Nat) (hb : 1 ≤ bn) (c : Nat) (cs : List Nat)
    (hne : cs ≠ []) (hcs : ∀ x ∈ c :: cs, 1 ≤ x ∧ 2 * bn ≤ x)
    (hsum : (c :: cs).sum = l.length) :
    pySlice none (some (-(bn : Int)))
        (pySlice (some ((0 - bn : Nat) : Int)) (some ((0 + c + bn : Nat) : Int)) l)
      ++ ((fragsOf l (bn : Int) c cs).dropLast.map
            (fun t => pySlice (some (bn : Int)) (some (-(bn : Int))) t)
          ++ [pySlice (some (bn : Int)) none ((fragsOf l (bn : Int) c cs).getLastD [])]).flatten
      = l := by
  have hc := hcs c (List.mem_cons_self c cs)
  have hsum2 : c + cs.sum = l.length := by simpa using hsum
  have hbc : bn ≤ c := by omega
  have hcb : c + bn ≤ l.length := by
    cases cs with
    | nil => exact absurd rfl hne
    | cons x xs =>
      have hx := hcs x (List.mem_cons_of_mem c (List.mem_cons_self x xs))
      simp only [List.sum_cons] at hsum2
      omega
  rw [tailJoin l bn hb cs c hne (fun x hx => hcs x (List.mem_cons_of_mem c hx)) hbc
    (by omega)]
  rw [pySlice_nat]
  have ha : min (0 - bn) l.length = 0 := by omega
  have he : min (0 + c + bn) l.length = c + bn := by omega
  rw [ha, he, List.drop_zero]
  rw [pySlice_none_neg _ (by positivity)]
  rw [List.length_take]
  rw [show min (c + bn) l.length - ((bn : Int)).toNat = c from by omega]
  rw [List.take_take]
  rw [show c ⊓ (c + bn) = c from by omega]
  exact List.take_append_drop c l

/-- With buffer 0 the fragments partition the list exactly. -/
theorem joinZero (l : List γ) :
    ∀ (cs : List Nat) (st : Nat), st + cs.sum = l.length →
      (fragsOf l ((0 : Nat) : Int) st cs).flatten = l.drop st := by
  intro cs
  induction cs with
  | nil =>
    intro st hsum
    have : st = l.length := by simpa using hsum
    subst this
    simp [fragsOf, buildSlicesAux, List.drop_length]
  | cons c cs ih =>
    intro st hsum
    rw [fragsOf_cons, List.flatten_cons]
    have hsum2 : (st + c) + cs.sum = l.length := by
      simp only [List.sum_cons] at hsum
      omega
    rw [ih (st + c) hsum2]
    rw [pySlice_nat]
    have ha : min (st - 0) l.length = st := by omega
    have he : min (st + c + 0) l.length = st + c := by omega
    rw [ha, he]
    rw [List.drop_take (st + c) st l]
    rw [show st + c - st = c from by omega]
    rw [show st + c = c + st from by omega]
    exact List.drop_take_append_drop' l st c

/-- A group concatenation evaluates to the componentwise joins, keeping
the first fragment's dimension. -/
theorem concatAll_cons (dimn : String) (g : Ds α) (gs : List (Ds α)) :
    concatAll dimn (g :: gs) = .ok
      { dim := g.dim
        coords := ((g :: gs).map Ds.coords).flatten
        data := ((g :: gs).map Ds.data).flatten
        chunks := ((g :: gs).map Ds.chunks).flatten } := by
  induction gs generalizing g with
  | nil =>
    simp only [concatAll, List.foldl, List.map_cons, List.map_nil, List.flatten_cons,
      List.flatten_nil, List.append_nil]
  | cons g2 gs ih =>
    have hstep : concatAll dimn (g :: g2 :: gs)
        = concatAll dimn (({ dim := g.dim,
                             coords := g.coords ++ g2.coords,
                             data := g.data ++ g2.data,
                             chunks := g.chunks ++ g2.chunks } : Ds α) :: gs) := rfl
    rw [hstep, ih]
    simp [List.append_assoc]

/-- The shape of the trimming step on a non-empty group with a positive
buffer. -/
theorem applyBuffer_cons (bi : Int) (hb : 0 < bi) (f : Ds α) (gs : List (Ds α)) :
    applyBuffer bi (f :: gs) =
      f.isel1 ⟨none, some (-bi)⟩
        :: (gs.dropLast.map (fun t => t.isel1 ⟨some bi, some (-bi)⟩)
          ++ [(gs.getLastD f).isel1 ⟨some bi, none⟩]) := by
  simp [applyBuffer, hb]

/-- `getLastD` commutes with `map`. -/
theorem getLastD_map (f : γ → δ) : ∀ (l : List γ) (d : γ),
    (l.map f).getLastD (f d) = f (l.getLastD d)
  | [], _ => rfl
  | a :: l, d => by
    rw [List.map_cons, List.getLastD_cons, List.getLastD_cons, getLastD_map f l a]

/-- The default of `getLastD` is irrelevant for a non-empty list. -/
theorem getLastD_cons_default (a : γ) (l : List γ) (d d2 : γ) :
    (a :: l).getLastD d = (a :: l).getLastD d2 := by
  rw [List.getLastD_cons, List.getLastD_cons]

/-- The head (with default) of a slice beginning at an in-range offset. -/
theorem headD_take_drop (l : List γ) (a e : Nat) (h : a < e)
    (d : γ) : ((l.take e).drop a).headD d = l.getD a d := by
  rw [List.headD_eq_head?, List.head?_drop, List.getElem?_take, if_pos h,
    List.getD_eq_getElem?_getD]

/-- Filtering out entries with a different key does not change a lookup. -/
theorem lookup_filter_ne {τ : Type} (l : List (String × τ)) (p q : String) (h : p ≠ q) :
    (l.filter (fun e => !(e.1 == q))).lookup p = l.lookup p := by
  induction l with
  | nil => rfl
  | cons e rest ih =>
    obtain ⟨k, v⟩ := e
    by_cases heq : k = q
    · have hkq : (k == q) = true := beq_iff_eq.mpr heq
      have hpk : (p == k) = false := beq_eq_false_iff_ne.mpr (by rw [heq]; exact h)
      simp [List.filter_cons, hkq, List.lookup, hpk, ih]
    · have hkq : (k == q) = false := beq_eq_false_iff_ne.mpr heq
      by_cases hpk : p = k
      · subst hpk
        simp [List.filter_cons, hkq, List.lookup]
      · have hpk2 : (p == k) = false := beq_eq_false_iff_ne.mpr hpk
        simp [List.filter_cons, hkq, List.lookup, hpk2, ih]

/-- A write makes the written dataset visible at its path. -/
theorem fsWrite_lookup_self (fs : FS α) (p : String) (d : Ds α) :
    (fsWrite fs p d).files.lookup p = some d := by
  simp [fsWrite, List.lookup]

/-- A write to a different path does not change a lookup. -/
theorem fsWrite_lookup_ne (fs : FS α) (p q : String) (d : Ds α) (h : p ≠ q) :
    (fsWrite fs q d).files.lookup p = fs.files.lookup p := by
  have hpq : (p == q) = false := beq_eq_false_iff_ne.mpr h
  simp only [fsWrite, List.lookup, hpq]
  exact lookup_filter_ne fs.files p q h

/-- The write loop of `tile` does not change a lookup at a path it never
writes. -/
theorem foldl_write_preserved (path p : String) :
    ∀ (entries : List (String × Ds α)) (fs0 : FS α),
      (∀ e ∈ entries, joinPath path e.1 ≠ p) →
      ((entries.foldl (fun f e => fsWrite f (joinPath path e.1) e.2) fs0)).files.lookup p
        = fs0.files.lookup p := by
  intro entries
  induction entries with
  | nil => intro fs0 _; rfl
  | cons e rest ih =>
    intro fs0 h
    simp only [List.foldl_cons]
    rw [ih (fsWrite fs0 (joinPath path e.1) e.2)
      (fun x hx => h x (List.mem_cons_of_mem e hx))]
    exact fsWrite_lookup_ne fs0 p (joinPath path e.1) e.2
      (fun hp => h e (List.mem_cons_self e rest) hp.symm)

/-- After the write loop of `tile`, every written entry is found at its
full path, provided the full paths are pairwise distinct. -/
theorem foldl_write_lookup (path : String) :
    ∀ (entries : List (String × Ds α)) (fs0 : FS α),
      (entries.map (fun e => joinPath path e.1)).Nodup →
      ∀ e ∈ entries,
        ((entries.foldl (fun f x => fsWrite f (joinPath path x.1) x.2) fs0)).files.lookup
          (joinPath path e.1) = some e.2 := by
  intro entries
  induction entries with
  | nil => intro fs0 _ e he; simp at he
  | cons e0 rest ih =>
    intro fs0 hnd e he
    simp only [List.map_cons, List.nodup_cons] at hnd
    rcases List.mem_cons.mp he with h | h
    · subst h
      simp only [List.foldl_cons]
      rw [foldl_write_preserved path (joinPath path e.1) rest _
        (fun x hx hcontra => hnd.1 (hcontra ▸ List.mem_map_of_mem _ hx))]
      exact fsWrite_lookup_self fs0 _ _
    · simp only [List.foldl_cons]
      exact ih (fsWrite fs0 (joinPath path e0.1) e0.2) hnd.2 e h

/-- Joining distinct file names under the same directory yields distinct
paths. -/
theorem joinPath_right_inj (p a b : String) (h : joinPath p a = joinPath p b) :
    a = b := by
  have hd := congrArg String.data h
  simp only [joinPath, String.data_append, List.append_assoc] at hd
  have hd2 := List.append_cancel_left hd
  have hd3 := List.append_cancel_left hd2
  exact String.ext hd3

/-- Mapped `mapM` over a pointwise-successful effectful function. -/
theorem mapM_ok {σ ρ τ : Type} (f : σ → Except String τ) (g : ρ → σ) (h2 : ρ → τ) :
    ∀ (l : List ρ), (∀ x ∈ l, f (g x) = .ok (h2 x)) →
      (l.map g).mapM f = .ok (l.map h2) := by
  intro l
  induction l with
  | nil => intro _; rfl
  | cons x xs ih =>
    intro h
    rw [List.map_cons, List.mapM_cons, h x (List.mem_cons_self x xs),
      ih (fun y hy => h y (List.mem_cons_of_mem x hy))]
    rfl

/-- The reduction loop on a single remaining dataset returns it, for any
fuel. -/
theorem mergeLoop_single (buffer : Buffer) (fuel : Nat) (cache : List (String × Int))
    (d : Ds α) : mergeLoop buffer fuel cache [d] = .ok d := by
  cases fuel <;> rfl

/-- A one-dimension slice dictionary reduces to plain positional
slicing. -/
theorem iselCombo_single (d : Ds α) (s : Slc) :
    d.iselCombo [(d.dim, s)] = d.isel1 s := by
  simp [Ds.iselCombo]

/-- The datasets written by `tile` are the buffered slices of the
original. -/
theorem tileEntries_snd (ds : Ds α) (pfx : String) (b : Int) :
    (tileEntries ds pfx (Buffer.int b)).map Prod.snd =
      (buildSlicesAux b 0 ds.chunks).map (fun s => ds.isel1 s) := by
  simp only [tileEntries, resolveTileBuf, buildSlices, dictProduct_single, List.map_map]
  apply List.map_congr_left
  intro s _
  simp [iselCombo_single]

/-- Every written fragment keeps the dimension of the original dataset. -/
theorem frags_dim (ds : Ds α) (b : Int) (st : Nat) (cs : List Nat) :
    ∀ f ∈ (buildSlicesAux b st cs).map (fun s => ds.isel1 s), f.dim = ds.dim := by
  intro f hf
  obtain ⟨s, _, rfl⟩ := List.mem_map.mp hf
  rfl

/-- The coordinate axes of the written fragments are the buffered
coordinate segments. -/
theorem frags_map_coords (ds : Ds α) (b : Int) (st : Nat) (cs : List Nat) :
    ((buildSlicesAux b st cs).map (fun s => ds.isel1 s)).map Ds.coords
      = fragsOf ds.coords b st cs := by
  simp [fragsOf, List.map_map, Ds.isel1]

/-- The data values of the written fragments are the buffered data
segments. -/
theorem frags_map_data (ds : Ds α) (b : Int) (st : Nat) (cs : List Nat) :
    ((buildSlicesAux b st cs).map (fun s => ds.isel1 s)).map Ds.data
      = fragsOf ds.data b st cs := by
  simp [fragsOf, List.map_map, Ds.isel1]

/-- The first coordinate of each written fragment is the head of the
corresponding buffered coordinate segment. -/
theorem frags_firstCoords (ds : Ds α) (b : Int) (st : Nat) (cs : List Nat) :
    ((buildSlicesAux b st cs).map (fun s => ds.isel1 s)).map
        (fun x => firstCoordOf x ds.dim)
      = (fragsOf ds.coords b st cs).map (fun t => t.headD 0) := by
  simp [fragsOf, List.map_map, firstCoordOf, Ds.isel1]

/-- Every buffered segment of a positive chunk is non-empty. -/
theorem fragsOf_ne_nil (l : List γ) (bn : Nat) :
    ∀ (cs : List Nat) (st : Nat), (∀ c ∈ cs, 1 ≤ c) → st + cs.sum ≤ l.length →
      ∀ t ∈ fragsOf l (bn : Int) st cs, t ≠ [] := by
  intro cs
  induction cs with
  | nil => intro st _ _ t ht; simp [fragsOf, buildSlicesAux] at ht
  | cons c cs ih =>
    intro st hc hsum t ht
    rw [fragsOf_cons] at ht
    rcases List.mem_cons.mp ht with h | h
    · subst h
      have hc1 := hc c (List.mem_cons_self c cs)
      have hstc : st + c ≤ l.length := by
        simp only [List.sum_cons] at hsum
        omega
      rw [pySlice_nat]
      intro hnil
      have hl := congrArg List.length hnil
      simp only [List.length_drop, List.length_take, List.length_nil] at hl
      omega
    · exact ih (st + c) (fun x hx => hc x (List.mem_cons_of_mem c hx))
        (by simp only [List.sum_cons] at hsum; omega) t h

/-- The heads of the buffered segments are the coordinates at the clipped
buffered starts. -/
theorem fragsOf_heads (l : List Int) (bn : Nat) :
    ∀ (cs : List Nat) (st : Nat), (∀ c ∈ cs, 1 ≤ c) → st + cs.sum ≤ l.length →
      (fragsOf l (bn : Int) st cs).map (fun t => t.headD 0)
        = (cumStartsAux st cs).map (fun k => l.getD (k - bn) 0) := by
  intro cs
  induction cs with
  | nil => intro st _ _; rfl
  | cons c cs ih =>
    intro st hc hsum
    have hc1 := hc c (List.mem_cons_self c cs)
    have hL : st + c ≤ l.length := by
      simp only [List.sum_cons] at hsum
      omega
    rw [fragsOf_cons]
    simp only [cumStartsAux, List.map_cons]
    have hhead : (pySlice (some ((st - bn : Nat) : Int))
        (some ((st + c + bn : Nat) : Int)) l).headD 0 = l.getD (st - bn) 0 := by
      rw [pySlice_nat]
      rw [show min (st - bn) l.length = st - bn from by omega]
      exact headD_take_drop l (st - bn) (min (st + c + bn) l.length) (by omega) 0
    rw [hhead, ih (st + c) (fun x hx => hc x (List.mem_cons_of_mem c hx))
      (by simp only [List.sum_cons] at hsum; omega)]

/-- Positional access preserves strict coordinate monotonicity. -/
theorem getD_strictMono (l : List Int) (hmono : l.Chain' (fun x y => x < y))
    (i j : Nat) (hij : i < j) (hj : j < l.length) :
    l.getD i 0 < l.getD j 0 := by
  have hi : i < l.length := lt_trans hij hj
  rw [List.getD_eq_getElem l 0 hi, List.getD_eq_getElem l 0 hj]
  have hp := List.chain'_iff_pairwise.mp hmono
  have hg := List.pairwise_iff_get.mp hp ⟨i, hi⟩ ⟨j, hj⟩ hij
  simpa using hg

/-- The first coordinates of the buffered segments of a strictly
increasing coordinate axis, taken in chunk order, are strictly
increasing. -/
theorem firstVals_chain (l : List Int) (hmono : l.Chain' (fun x y => x < y)) (bn : Nat) :
    ∀ (cs : List Nat) (st : Nat), (∀ c ∈ cs, 1 ≤ c ∧ 2 * bn ≤ c) →
      (bn ≤ st ∨ st = 0) → st + cs.sum ≤ l.length →
      ((cumStartsAux st cs).map (fun k => l.getD (k - bn) 0)).Chain'
        (fun x y => x < y) := by
  intro cs
  induction cs with
  | nil => intro st _ _ _; simp [cumStartsAux]
  | cons c cs ih =>
    intro st hc hst hsum
    simp only [cumStartsAux, List.map_cons]
    cases cs with
    | nil => simp [cumStartsAux]
    | cons c2 cs2 =>
      have hc1 := hc c (List.mem_cons_self c (c2 :: cs2))
      have hc2 := hc c2 (List.mem_cons_of_mem c (List.mem_cons_self c2 cs2))
      have hsum2 : st + c + (c2 :: cs2).sum ≤ l.length := by
        simp only [List.sum_cons] at hsum ⊢
        omega
      have htail := ih (st + c) (fun x hx => hc x (List.mem_cons_of_mem c hx))
        (Or.inl (by omega)) hsum2
      simp only [cumStartsAux, List.map_cons] at htail ⊢
      rw [List.chain'_cons]
      refine ⟨?_, htail⟩
      have hj : st + c - bn < l.length := by
        simp only [List.sum_cons] at hsum
        omega
      exact getD_strictMono l hmono (st - bn) (st + c - bn) (by omega) hj

/-- Lexicographic comparison of singleton keys is false in the decreasing
direction. -/
theorem lexLt_single_false (u v : Int) (h : u < v) : lexLt [v] [u] = false := by
  simp only [lexLt]
  rw [if_neg (by omega), if_pos h]

/-- A list with two distinct members deduplicates to more than one
element. -/
theorem one_lt_dedup (l : List Int) (a b : Int) (ha : a ∈ l) (hb : b ∈ l)
    (hab : a ≠ b) : 1 < l.dedup.length := by
  have ha2 : a ∈ l.dedup := List.mem_dedup.mpr ha
  have hb2 : b ∈ l.dedup := List.mem_dedup.mpr hb
  cases hd : l.dedup with
  | nil => rw [hd] at ha2; simp at ha2
  | cons x t =>
    cases t with
    | nil =>
      rw [hd] at ha2 hb2
      simp only [List.mem_singleton] at ha2 hb2
      exact absurd (ha2.trans hb2.symm) hab
    | cons y rest => simp

/-- A stable sort of an already-sorted list is the identity. -/
theorem sortStable_id (lt : β → β → Bool) :
    ∀ (l : List β), l.Chain' (fun a b => lt b a = false) → sortStable lt l = l := by
  intro l
  induction l with
  | nil => intro _; rfl
  | cons x xs ih =>
    intro h
    have htail : sortStable lt xs = xs := ih h.tail
    simp only [sortStable, htail]
    cases xs with
    | nil => rfl
    | cons y ys =>
      have hxy : lt y x = false := (List.chain'_cons.mp h).1
      simp [insertSorted, hxy]

/-- Grouping by an always-true key equality yields a single group. -/
theorem groupRuns_const (eqv : β → β → Bool) (h : ∀ a b, eqv a b = true) :
    ∀ (xs : List β) (x : β), groupRuns eqv (x :: xs) = [x :: xs] := by
  intro xs
  induction xs with
  | nil => intro x; rfl
  | cons y ys ih =>
    intro x
    have hstep : groupRuns eqv (x :: y :: ys)
        = match groupRuns eqv (y :: ys) with
          | [] => [[x]]
          | [] :: gs => [x] :: gs
          | (z :: g) :: gs =>
            if eqv x z then (x :: z :: g) :: gs else [x] :: (z :: g) :: gs := rfl
    rw [hstep, ih y]
    simp [h x y]

/-- A reduction pass over fragments sharing one dimension, with strictly
increasing first coordinates and an explicit buffer, finds the single
split dimension, keeps the already-sorted order, forms one group of all
fragments and reduces to trimming followed by concatenation. -/
theorem combineAlongLastDim_int {α : Type} (b : Int) (cache : List (String × Int))
    (dimn : String) (f0 : Ds α) (rest : List (Ds α))
    (hd : ∀ f ∈ f0 :: rest, f.dim = dimn)
    (hne : ∀ f ∈ f0 :: rest, f.coords.isEmpty = false)
    (hdedup : 1 < (((f0 :: rest).map fun x => firstCoordOf x dimn)).dedup.length)
    (hchain : (f0 :: rest).Chain'
      (fun x y => firstCoordOf x dimn < firstCoordOf y dimn)) :
    combineAlongLastDim (Buffer.int b) cache (f0 :: rest)
      = (concatAll dimn (applyBuffer b (f0 :: rest))).map (fun m => ([m], cache)) := by
  have hd0 : f0.dim = dimn := hd f0 (List.mem_cons_self f0 rest)
  have hft : ¬(false = true) := by simp
  have h1 : ((f0 :: rest).any fun d => d.coords.isEmpty) = false := by
    rw [List.any_eq_false]
    intro f hf
    simp [hne f hf]
  have h2 : ((f0 :: rest).any fun d => !(d.dim == f0.dim)) = false := by
    rw [List.any_eq_false]
    intro f hf
    simp [hd f hf, hd0]
  have hpred : (decide ((((f0 :: rest).map fun x =>
      firstCoordOf x dimn)).dedup.length > 1)) = true := decide_eq_true hdedup
  have hsort : sortStable
      (fun a b => lexLt [firstCoordOf a dimn] [firstCoordOf b dimn]) (f0 :: rest)
      = f0 :: rest := by
    apply sortStable_id
    exact hchain.imp (fun a b h => lexLt_single_false _ _ h)
  simp only [combineAlongLastDim, List.head?_cons]
  rw [h1, if_neg hft, h2, if_neg hft]
  simp only [Ds.dims, hd0, List.filter_cons, List.filter_nil]
  rw [hpred]
  simp only [eq_self_iff_true, if_true, List.getLast?_singleton, List.dropLast_single,
    List.map_cons, List.map_nil]
  rw [hsort]
  rw [groupRuns_const (fun (_ _ : Ds α) => (([] : List Int) == ([] : List Int)))
    (fun _ _ => rfl) rest f0]
  simp only [List.foldl_cons, List.foldl_nil]
  show Except.bind (concatAll dimn (applyBuffer b (f0 :: rest)))
      (fun m => Except.ok (([] : List (Ds α)) ++ [m], cache))
    = Except.map (fun m => ([m], cache)) (concatAll dimn (applyBuffer b (f0 :: rest)))
  cases concatAll dimn (applyBuffer b (f0 :: rest)) <;> rfl

/-- One full reduction pass over the tile fragments of a dataset with at
least two chunks recovers the original dimension, coordinates and data
values, and leaves the buffer cache unchanged. -/
theorem combine_pass {α : Type} (ds : Ds α) (b : Nat)
    (hmono : ds.coords.Chain' (fun x y => x < y))
    (hlen : ds.coords.length = ds.data.length)
    (hsum : ds.chunks.sum = ds.coords.length)
    (hchunk : ∀ x ∈ ds.chunks, 1 ≤ x ∧ 2 * b ≤ x)
    (c c2 : Nat) (cs2 : List Nat) (hcs : ds.chunks = c :: c2 :: cs2) :
    ∃ m, combineAlongLastDim (Buffer.int (b : Int)) []
        ((buildSlicesAux (b : Int) 0 ds.chunks).map (fun s => ds.isel1 s))
        = .ok ([m], [])
      ∧ m.dim = ds.dim ∧ m.coords = ds.coords ∧ m.data = ds.data := by
  rw [hcs] at hsum hchunk ⊢
  have hchunk1 : ∀ x ∈ c :: c2 :: cs2, 1 ≤ x := fun x hx => (hchunk x hx).1
  obtain ⟨f0, f1, fr, hF⟩ : ∃ f0 f1 fr,
      (buildSlicesAux (b : Int) 0 (c :: c2 :: cs2)).map (fun s => ds.isel1 s)
        = f0 :: f1 :: fr := by
    simp only [buildSlicesAux, List.map_cons]
    exact ⟨_, _, _, rfl⟩
  have hd : ∀ f ∈ f0 :: f1 :: fr, f.dim = ds.dim :=
    hF ▸ frags_dim ds (b : Int) 0 (c :: c2 :: cs2)
  have hcoords : (f0 :: f1 :: fr).map Ds.coords
      = fragsOf ds.coords (b : Int) 0 (c :: c2 :: cs2) :=
    hF ▸ frags_map_coords ds (b : Int) 0 (c :: c2 :: cs2)
  have hdata : (f0 :: f1 :: fr).map Ds.data
      = fragsOf ds.data (b : Int) 0 (c :: c2 :: cs2) :=
    hF ▸ frags_map_data ds (b : Int) 0 (c :: c2 :: cs2)
  have hne : ∀ f ∈ f0 :: f1 :: fr, f.coords.isEmpty = false := by
    intro f hf
    have hmem : f.coords ∈ fragsOf ds.coords (b : Int) 0 (c :: c2 :: cs2) := by
      rw [← hcoords]
      exact List.mem_map_of_mem Ds.coords hf
    have hnil := fragsOf_ne_nil ds.coords b (c :: c2 :: cs2) 0 hchunk1
      (by omega) f.coords hmem
    cases hcl : f.coords with
    | nil => exact absurd hcl hnil
    | cons a t => rfl
  have hvals : (f0 :: f1 :: fr).map (fun x => firstCoordOf x ds.dim)
      = (cumStartsAux 0 (c :: c2 :: cs2)).map (fun k => ds.coords.getD (k - b) 0) := by
    rw [← hF, frags_firstCoords,
      fragsOf_heads ds.coords b (c :: c2 :: cs2) 0 hchunk1 (by omega)]
  have hchainV := firstVals_chain ds.coords hmono b (c :: c2 :: cs2) 0 hchunk
    (Or.inr rfl) (by omega)
  have hchainM : ((f0 :: f1 :: fr).map (fun x => firstCoordOf x ds.dim)).Chain'
      (fun x y => x < y) := by
    rw [hvals]
    exact hchainV
  have hchainF := (List.chain'_map (fun x => firstCoordOf x ds.dim)).mp hchainM
  have hdedup : 1 < (((f0 :: f1 :: fr).map fun x =>
      firstCoordOf x ds.dim)).dedup.length := by
    rw [hvals]
    simp only [cumStartsAux, List.map_cons]
    have hlt : ds.coords.getD (0 - b) 0 < ds.coords.getD (0 + c - b) 0 := by
      have hch := hchainV
      simp only [cumStartsAux, List.map_cons, List.chain'_cons] at hch
      exact hch.1
    exact one_lt_dedup _ (ds.coords.getD (0 - b) 0) (ds.coords.getD (0 + c - b) 0)
      (List.mem_cons_self _ _) (List.mem_cons_of_mem _ (List.mem_cons_self _ _))
      (ne_of_lt hlt)
  rw [hF, combineAlongLastDim_int (b : Int) [] ds.dim f0 (f1 :: fr) hd hne hdedup hchainF]
  rcases Nat.eq_zero_or_pos b with hb0 | hb1
  · subst hb0
    have hab : applyBuffer ((0 : Nat) : Int) (f0 :: f1 :: fr) = f0 :: f1 :: fr := by
      simp [applyBuffer]
    rw [hab, concatAll_cons]
    refine ⟨_, rfl, hd f0 (List.mem_cons_self _ _), ?_, ?_⟩
    · rw [hcoords, joinZero ds.coords (c :: c2 :: cs2) 0 (by omega), List.drop_zero]
    · rw [hdata, joinZero ds.data (c :: c2 :: cs2) 0 (by omega), List.drop_zero]
  · have hbpos : (0 : Int) < (b : Int) := by exact_mod_cast hb1
    rw [applyBuffer_cons (b : Int) hbpos f0 (f1 :: fr), concatAll_cons]
    refine ⟨_, rfl, hd f0 (List.mem_cons_self _ _), ?_, ?_⟩
    · have h := hcoords
      rw [fragsOf_cons] at h
      rw [List.map_cons] at h
      have h01 := (List.cons_eq_cons.mp h).1
      have h02 := (List.cons_eq_cons.mp h).2
      have hmid : (f1 :: fr).dropLast.map
          (fun t => pySlice (some ((b : Nat) : Int)) (some (-((b : Nat) : Int))) t.coords)
          = (((f1 :: fr).map Ds.coords).dropLast).map
            (fun t => pySlice (some ((b : Nat) : Int)) (some (-((b : Nat) : Int))) t) := by
        rw [← List.map_dropLast, List.map_map]
        rfl
      have hfull := fullJoin ds.coords b hb1 c (c2 :: cs2) (by simp) hchunk (by omega)
      simp only [List.map_cons, List.map_append, List.map_map, List.map_nil,
        List.flatten_cons, Ds.isel1]
      rw [← getLastD_map Ds.coords (f1 :: fr) f0]
      show pySlice none (some (-((b : Nat) : Int))) f0.coords
          ++ ((f1 :: fr).dropLast.map
              (fun t => pySlice (some ((b : Nat) : Int)) (some (-((b : Nat) : Int))) t.coords)
            ++ [pySlice (some ((b : Nat) : Int)) none
                (((f1 :: fr).map Ds.coords).getLastD f0.coords)]).flatten
          = ds.coords
      rw [hmid, h02]
      have hdef : (fragsOf ds.coords ((b : Nat) : Int) (0 + c) (c2 :: cs2)).getLastD f0.coords
          = (fragsOf ds.coords ((b : Nat) : Int) (0 + c) (c2 :: cs2)).getLastD [] := by
        rw [fragsOf_cons]
        exact getLastD_cons_default _ _ _ _
      rw [hdef, h01]
      simp only [Nat.zero_add] at hfull ⊢
      exact hfull
    · have h := hdata
      rw [fragsOf_cons] at h
      rw [List.map_cons] at h
      have h01 := (List.cons_eq_cons.mp h).1
      have h02 := (List.cons_eq_cons.mp h).2
      have hmid : (f1 :: fr).dropLast.map
          (fun t => pySlice (some ((b : Nat) : Int)) (some (-((b : Nat) : Int))) t.data)
          = (((f1 :: fr).map Ds.data).dropLast).map
            (fun t => pySlice (some ((b : Nat) : Int)) (some (-((b : Nat) : Int))) t) := by
        rw [← List.map_dropLast, List.map_map]
        rfl
      have hfull := fullJoin ds.data b hb1 c (c2 :: cs2) (by simp) hchunk (by omega)
      simp only [List.map_cons, List.map_append, List.map_map, List.map_nil,
        List.flatten_cons, Ds.isel1]
      rw [← getLastD_map Ds.data (f1 :: fr) f0]
      show pySlice none (some (-((b : Nat) : Int))) f0.data
          ++ ((f1 :: fr).dropLast.map
              (fun t => pySlice (some ((b : Nat) : Int)) (some (-((b : Nat) : Int))) t.data)
            ++ [pySlice (some ((b : Nat) : Int)) none
                (((f1 :: fr).map Ds.data).getLastD f0.data)]).flatten
          = ds.data
      rw [hmid, h02]
      have hdef : (fragsOf ds.data ((b : Nat) : Int) (0 + c) (c2 :: cs2)).getLastD f0.data
          = (fragsOf ds.data ((b : Nat) : Int) (0 + c) (c2 :: cs2)).getLastD [] := by
        rw [fragsOf_cons]
        exact getLastD_cons_default _ _ _ _
      rw [hdef, h01]
      simp only [Nat.zero_add] at hfull ⊢
      exact hfull

/-- C2 (amended): for every dataset with strictly increasing coordinates,
data aligned with the coordinate axis, and a non-empty chunk list, and
every fixed buffer `b ≥ 0` such that every chunk length is positive and
at least `2 * b` (so the written tile names are pairwise distinct),
splitting into tile files with buffer `b` and then merging those files
with the same fixed `b` reproduces the original dimension, coordinates
and data values; the overlap regions are trimmed exactly once. -/
theorem c2_split_merge_round_trip {α : Type} (ds : Ds α) (path pfx : String) (b : Nat)
    (fs : FS α) (hfile : isfile fs path = false)
    (hlen : ds.coords.length = ds.data.length)
    (hsum : ds.chunks.sum = ds.coords.length)
    (hnil : ds.chunks ≠ [])
    (hchunk : ∀ x ∈ ds.chunks, 1 ≤ x ∧ 2 * b ≤ x)
    (hmono : ds.coords.Chain' (fun x y => x < y))
    (hnames : ((tileEntries ds pfx (Buffer.int (b : Int))).map Prod.fst).Nodup) :
    ∃ fs2 merged,
      tile ds path pfx none (Buffer.int (b : Int)) fs = .ok fs2 ∧
      auto_merge fs2
        (MergeInput.paths ((tileEntries ds pfx (Buffer.int (b : Int))).map
          (fun e => joinPath path e.1))) (Buffer.int (b : Int)) = .ok merged ∧
      merged.dim = ds.dim ∧ merged.coords = ds.coords ∧ merged.data = ds.data := by
  have hft : ¬(false = true) := by simp
  have hinj : Function.Injective (joinPath path) :=
    fun a b2 hab => joinPath_right_inj path a b2 hab
  have hpathsNodup : ((tileEntries ds pfx (Buffer.int (b : Int))).map
      (fun e => joinPath path e.1)).Nodup := by
    have hmm : (tileEntries ds pfx (Buffer.int (b : Int))).map (fun e => joinPath path e.1)
        = ((tileEntries ds pfx (Buffer.int (b : Int))).map Prod.fst).map (joinPath path) := by
      rw [List.map_map]
      rfl
    rw [hmm]
    exact hnames.map hinj
  obtain ⟨fsF, htile, hlook⟩ : ∃ fsF,
      tile ds path pfx none (Buffer.int (b : Int)) fs = .ok fsF ∧
      ∀ e ∈ tileEntries ds pfx (Buffer.int (b : Int)),
        fsF.files.lookup (joinPath path e.1) = some e.2 :=
    ⟨(tileEntries ds pfx (Buffer.int (b : Int))).foldl
        (fun f e => fsWrite f (joinPath path e.1) e.2)
        (if isdir fs path then fs else makedirs fs path),
      by simp [tile, hfile],
      foldl_write_lookup path _ _ hpathsNodup⟩
  have hopen : ∀ e ∈ tileEntries ds pfx (Buffer.int (b : Int)),
      openDs fsF (joinPath path e.1) = .ok e.2 := by
    intro e he
    simp [openDs, hlook e he]
  have hmapM : ((tileEntries ds pfx (Buffer.int (b : Int))).map
        (fun e => joinPath path e.1)).mapM (openDs fsF)
      = .ok ((tileEntries ds pfx (Buffer.int (b : Int))).map Prod.snd) :=
    mapM_ok (openDs fsF) (fun e => joinPath path e.1) Prod.snd _ hopen
  have hpne : (((tileEntries ds pfx (Buffer.int (b : Int))).map
      (fun e => joinPath path e.1))).isEmpty = false := by
    cases hc : tileEntries ds pfx (Buffer.int (b : Int)) with
    | nil =>
      exfalso
      have h2 := tileEntries_snd ds pfx (b : Int)
      rw [hc] at h2
      cases hcs : ds.chunks with
      | nil => exact hnil hcs
      | cons x xs =>
        rw [hcs] at h2
        simp [buildSlicesAux] at h2
    | cons e es => rfl
  have hmerge0 : auto_merge fsF
      (MergeInput.paths ((tileEntries ds pfx (Buffer.int (b : Int))).map
        (fun e => joinPath path e.1))) (Buffer.int (b : Int))
      = mergeLoop (Buffer.int (b : Int))
          ((tileEntries ds pfx (Buffer.int (b : Int))).map Prod.snd).length []
          ((tileEntries ds pfx (Buffer.int (b : Int))).map Prod.snd) := by
    simp only [auto_merge]
    rw [hpne, if_neg hft, hmapM]
    rfl
  rw [tileEntries_snd ds pfx (b : Int)] at hmerge0
  rcases hcseq : ds.chunks with _ | ⟨c, _ | ⟨c2, cs2⟩⟩
  · exact absurd hcseq hnil
  · rw [hcseq] at hmerge0
    have hs0 : (buildSlicesAux (b : Int) 0 [c]).map (fun s => ds.isel1 s)
        = [ds.isel1 ⟨some (max 0 (((0 : Nat) : Int) - (b : Int))),
            some (((0 : Nat) : Int) + (c : Int) + (b : Int))⟩] := rfl
    rw [hs0, mergeLoop_single] at hmerge0
    have hcl : c = ds.coords.length := by
      rw [hcseq] at hsum
      simpa using hsum
    have hco : (ds.isel1 ⟨some (max 0 (((0 : Nat) : Int) - (b : Int))),
        some (((0 : Nat) : Int) + (c : Int) + (b : Int))⟩).coords = ds.coords := by
      show pySlice (some (max 0 (((0 : Nat) : Int) - (b : Int))))
          (some (((0 : Nat) : Int) + (c : Int) + (b : Int))) ds.coords = ds.coords
      rw [max_zero_sub_cast 0 b]
      rw [show (((0 : Nat) : Int) + (c : Int) + (b : Int)) = ((0 + c + b : Nat) : Int)
        from by push_cast; ring]
      rw [pySlice_nat]
      rw [show min (0 + c + b) ds.coords.length = ds.coords.length from by omega]
      rw [List.take_length]
      rw [show min (0 - b) ds.coords.length = 0 from by omega]
      exact List.drop_zero _
    have hda : (ds.isel1 ⟨some (max 0 (((0 : Nat) : Int) - (b : Int))),
        some (((0 : Nat) : Int) + (c : Int) + (b : Int))⟩).data = ds.data := by
      show pySlice (some (max 0 (((0 : Nat) : Int) - (b : Int))))
          (some (((0 : Nat) : Int) + (c : Int) + (b : Int))) ds.data = ds.data
      rw [max_zero_sub_cast 0 b]
      rw [show (((0 : Nat) : Int) + (c : Int) + (b : Int)) = ((0 + c + b : Nat) : Int)
        from by push_cast; ring]
      rw [pySlice_nat]
      rw [show min (0 + c + b) ds.data.length = ds.data.length from by omega]
      rw [List.take_length]
      rw [show min (0 - b) ds.data.length = 0 from by omega]
      exact List.drop_zero _
    exact ⟨fsF, _, htile, hmerge0, rfl, hco, hda⟩
  · rw [hcseq] at hmerge0
    obtain ⟨f0, f1, fr, hF⟩ : ∃ f0 f1 fr,
        (buildSlicesAux (b : Int) 0 (c :: c2 :: cs2)).map (fun s => ds.isel1 s)
          = f0 :: f1 :: fr := by
      simp only [buildSlicesAux, List.map_cons]
      exact ⟨_, _, _, rfl⟩
    rw [hF] at hmerge0
    obtain ⟨m, hpass, hmd, hmc, hmdat⟩ :=
      combine_pass ds b hmono hlen hsum hchunk c c2 cs2 hcseq
    rw [hcseq, hF] at hpass
    have hloop : mergeLoop (Buffer.int (b : Int)) (f0 :: f1 :: fr).length []
        (f0 :: f1 :: fr) = .ok m := by
      have hlen2 : (f0 :: f1 :: fr).length = fr.length + 1 + 1 := by simp
      rw [hlen2]
      show (do
        let (merged, cache2) ← combineAlongLastDim (Buffer.int (b : Int)) []
          (f0 :: f1 :: fr)
        mergeLoop (Buffer.int (b : Int)) (fr.length + 1) cache2 merged) = .ok m
      rw [hpass]
      show mergeLoop (Buffer.int (b : Int)) (fr.length + 1) [] [m] = .ok m
      exact mergeLoop_single _ _ _ _
    rw [hloop] at hmerge0
    exact ⟨fsF, m, htile, hmerge0, hmd, hmc, hmdat⟩

/-- Witness for C2 (amended) at a concrete input: the four-point dataset
with chunks `[2, 2]` and buffer 1, written under `out` on an empty file
system, splits into two tiles whose merge restores the original
dimension, coordinates and values. -/
theorem c2_witness :
    isfile fsEmptyI "out" = false ∧
    ∃ fs2 merged,
      tile dsRT "out" "part" none (Buffer.int ((1 : Nat) : Int)) fsEmptyI = .ok fs2 ∧
      auto_merge fs2
        (MergeInput.paths ((tileEntries dsRT "part" (Buffer.int ((1 : Nat) : Int))).map
          (fun e => joinPath "out" e.1))) (Buffer.int ((1 : Nat) : Int)) = .ok merged ∧
      merged.dim = dsRT.dim ∧ merged.coords = dsRT.coords ∧ merged.data = dsRT.data :=
  ⟨by decide,
    c2_split_merge_round_trip dsRT "out" "part" 1 fsEmptyI (by decide) (by decide)
      (by decide) (by decide) (by decide)
      (List.chain'_iff_pairwise.mpr (by decide)) (by decide)⟩

/-- Counterexample for C2 as stated: with chunks `[3, 1]` and fixed
buffer 2 the per-chunk bound fails, and splitting followed by merging
with the same buffer drops a row — the merged coordinates are
`[0, 1, 3]` instead of the original `[0, 1, 2, 3]`. -/
theorem c2_counterexample :
    ((tile dsCX "out" "part" none (Buffer.int 2) fsEmptyI).bind
        (fun fs2 => auto_merge fs2
          (MergeInput.paths ((tileEntries dsCX "part" (Buffer.int 2)).map
            (fun e => joinPath "out" e.1))) (Buffer.int 2))).map Ds.coords
      = .ok [0, 1, 3] ∧ ([0, 1, 3] : List Int) ≠ dsCX.coords :=
  ⟨rfl, by decide⟩

end ND
